import Mathlib

/-!
# Verification of the beam-search maze engine

Shallow embedding of `src/main.rs`: a single-agent reward-grid game with a
greedy baseline policy and depth-bounded or time-bounded beam search over a
binary max-heap frontier.

Modelling conventions:
* Rust `i32` values are modelled as `Int`, `u32`/`usize` as `Nat` (all claims
  concern states whose numbers stay far away from the machine bounds).
* Fallible operations (Rust panics: out-of-bounds `Vec` indexing,
  `Option::unwrap` on an empty heap, explicit `panic!`) are modelled with
  `Option` (`none` = panic) or an explicit `SearchOutcome.panics` value.
* The seeded random generator of `MazeState::new` is abstracted as a stream
  `rand : Nat → Nat`; the `k`-th call of `gen_range(0..n)` is `rand k % n`,
  which preserves exactly the ranges the code guarantees.
* Wall-clock time in `beam_search_with_time_threshold` is abstracted as a
  stream `elapsed : Nat → Nat` of millisecond readings, one per poll of
  `TimeKeeper::is_time_over`; the unbounded `for t in 0..` loop carries a
  `fuel` bound, `SearchOutcome.diverges` meaning the loop was still running.
-/

/-- Grid height (Rust `const H: usize = 30`). -/
def H : Nat := 30

/-- Grid width (Rust `const W: usize = 30`). -/
def W : Nat := 30

/-- Turn limit (Rust `const END_TERN: u32 = 100`). -/
def END_TERN : Nat := 100

/-- The four axis-aligned unit moves, as `(dw, dh)` pairs, in the fixed
enumeration order of the Rust `moves` constant. -/
def moves : List (Int × Int) := [(0, 1), (0, -1), (1, 0), (-1, 0)]

/-- Agent coordinate (row `h`, column `w`). -/
structure Coord where
  h : Int
  w : Int
deriving DecidableEq, Repr

/-- The game state (Rust `MazeState`). -/
structure MazeState where
  points : List (List Int)
  turns : Nat
  game_score : Int
  evaluated_score : Int
  character : Coord
  first_action : Int × Int
deriving DecidableEq, Repr

instance : Inhabited MazeState :=
  ⟨⟨[], 0, 0, 0, ⟨0, 0⟩, (0, 0)⟩⟩

/-- Constructor (Rust `MazeState::new`). The seeded `StdRng` is abstracted as
the stream `rand`; call `k` of `gen_range(0..n)` is modelled as `rand k % n`,
in the order the Rust code makes the calls: first the character's `w`, then
its `h`, then the rewards row by row. -/
def MazeState.new (rand : Nat → Nat) : MazeState :=
  { points := (List.range H).map (fun h =>
      (List.range W).map (fun w => ((rand (2 + h * W + w) % 10 : Nat) : Int)))
    turns := 0
    game_score := 0
    evaluated_score := 0
    character := { w := ((rand 0 % W : Nat) : Int), h := ((rand 1 % H : Nat) : Int) }
    first_action := (0, 0) }

/-- Rust `MazeState::is_done`. -/
def MazeState.is_done (s : MazeState) : Bool :=
  s.turns == END_TERN

/-- Rust `MazeState::evaluate_score`: copy `game_score` into
`evaluated_score`. -/
def MazeState.evaluate_score (s : MazeState) : MazeState :=
  { s with evaluated_score := s.game_score }

/-- Rust `MazeState::advance`. Moves the character by `(dw, dh) = m`, adds the
reward at the new cell, zeroes that cell, increments the turn counter.
Returns `none` exactly when the Rust code would panic: the new position
indexes `points` out of bounds (a negative coordinate cast `as usize` is
astronomically large, hence also out of bounds). -/
def MazeState.advance (s : MazeState) (m : Int × Int) : Option MazeState :=
  let w' := s.character.w + m.1
  let h' := s.character.h + m.2
  if 0 ≤ h' ∧ 0 ≤ w' then
    match s.points.get? h'.toNat with
    | none => none
    | some row =>
      match row.get? w'.toNat with
      | none => none
      | some p =>
        some { s with
          character := { h := h', w := w' }
          game_score := s.game_score + p
          points := s.points.set h'.toNat (row.set w'.toNat 0)
          turns := s.turns + 1 }
  else none

/-- Rust `MazeState::generate_legal_actions`: the moves from `moves`, in
order, whose target stays inside the `H × W` grid. -/
def MazeState.generate_legal_actions (s : MazeState) : List (Int × Int) :=
  moves.filter (fun md =>
    let nw := s.character.w + md.1
    let nh := s.character.h + md.2
    decide (0 ≤ nw) && decide (nw < (W : Int)) && decide (0 ≤ nh) && decide (nh < (H : Int)))

/-- Reward stored at grid cell `(i, j)` (row `i`, column `j`); out-of-range
reads default to `0` (used only for stating properties, never by the
program model itself). -/
def pointsAt (s : MazeState) (i j : Nat) : Int :=
  (s.points.getD i []).getD j 0

/-- Rust `TimeKeeper::is_time_over`: elapsed wall-clock milliseconds at this
poll, compared against the threshold. -/
def TimeKeeper.is_time_over (time_threshold_milseconds : Nat) (elapsed_now : Nat) : Bool :=
  decide (time_threshold_milseconds ≤ elapsed_now)

/-- Body of the `greedy_action` loop: clone-and-advance the candidate,
re-evaluate, and keep it only on a strictly greater `evaluated_score`.
`none` models a panic inside `advance`. -/
def greedyStep (state : MazeState) (best : Int × (Int × Int)) (action : Int × Int) :
    Option (Int × (Int × Int)) :=
  (state.advance action).map (fun now_state =>
    let now_state := now_state.evaluate_score
    if best.1 < now_state.evaluated_score then (now_state.evaluated_score, action)
    else best)

/-- Rust `greedy_action`: fold over the legal actions keeping the first move
whose one-ply `evaluated_score` strictly improves on the best so far,
starting from score `-1` and sentinel move `(-1, -1)`. -/
def greedy_action (state : MazeState) : Option (Int × Int) :=
  (state.generate_legal_actions.foldlM (greedyStep state)
    ((-1 : Int), ((-1 : Int), (-1 : Int)))).map (fun r => r.2)

/-- Ordering key of a move after one `advance` + `evaluate_score` from `s`
(the one-ply greedy lookahead score). -/
def onePlyScore (s : MazeState) (a : Int × Int) : Option Int :=
  (s.advance a).map (fun s2 => s2.evaluate_score.evaluated_score)

/-! ## The frontier: Rust `std::collections::BinaryHeap`

A max-heap over `MazeState`, ordered by `evaluated_score` (the derived `Ord`
implementation in the source compares only that field). The list is the
heap's backing vector in breadth-first order. `sift_up` and
`sift_down_to_bottom` follow the hole-based algorithms of the Rust standard
library; the recursion is bounded by an explicit first argument (the hole
index can only move toward the root, respectively the bottom), keeping every
definition structurally recursive and kernel-computable. -/

/-- Read of the heap's backing vector (indices are always in range when the
model runs; the default is never observable). -/
def hget (data : List MazeState) (i : Nat) : MazeState :=
  data.getD i default

/-- Hole-based sift-up (Rust `BinaryHeap::sift_up`): move the hole at `pos`
toward `start` while the element is strictly greater than the parent, then
drop the element into the hole. `fuel ≥ pos` makes the recursion structural;
the hole index strictly decreases. -/
def sift_upF : Nat → List MazeState → Nat → Nat → MazeState → List MazeState
  | 0, data, _, pos, elem => data.set pos elem
  | fuel + 1, data, start, pos, elem =>
    if start < pos then
      let parent := (pos - 1) / 2
      if elem.evaluated_score ≤ (hget data parent).evaluated_score then data.set pos elem
      else sift_upF fuel (data.set pos (hget data parent)) start parent elem
    else data.set pos elem

/-- Rust `BinaryHeap::sift_up` with the fuel instantiated. -/
def sift_up (data : List MazeState) (start pos : Nat) (elem : MazeState) : List MazeState :=
  sift_upF pos data start pos elem

/-- Rust `BinaryHeap::push`: append the item as a hole at the end, then sift
it up. -/
def Heap.push (data : List MazeState) (item : MazeState) : List MazeState :=
  sift_up (data ++ [item]) 0 data.length item

/-- Walk of the hole to the bottom of the tree (the loop of Rust
`BinaryHeap::sift_down_to_bottom`): at each step move the hole to its
greater child (the right child on ties, per `<=` in the source), until no
child exists; a final single left child is entered unconditionally. Returns
the walked vector and the bottom position of the hole. `fuel ≥ len` bounds
the walk; the hole index strictly increases. -/
def sdtbGoF : Nat → List MazeState → Nat → Nat → List MazeState × Nat
  | 0, data, pos, _ => (data, pos)
  | fuel + 1, data, pos, len =>
    let child := 2 * pos + 1
    if child + 2 ≤ len then
      let child :=
        if (hget data child).evaluated_score ≤ (hget data (child + 1)).evaluated_score
        then child + 1 else child
      sdtbGoF fuel (data.set pos (hget data child)) child len
    else if child + 1 = len then (data.set pos (hget data child), child)
    else (data, pos)

/-- Rust `BinaryHeap::sift_down_to_bottom` at position `0`: walk the hole to
the bottom, then sift the element back up from there. -/
def sift_down_to_bottom (data : List MazeState) (len : Nat) (elem : MazeState) :
    List MazeState :=
  let r := sdtbGoF len data 0 len
  sift_up r.1 0 r.2 elem

/-- Rust `BinaryHeap::pop`: remove the last element of the vector; if the
heap is still nonempty, swap it with the root (which is returned) and repair
with `sift_down_to_bottom`. -/
def Heap.pop : List MazeState → Option (MazeState × List MazeState)
  | [] => none
  | d@(_ :: _) =>
    let item := hget d (d.length - 1)
    let rest := d.dropLast
    if rest.length = 0 then some (item, [])
    else some (hget rest 0, sift_down_to_bottom (rest.set 0 item) rest.length item)

/-! ## Beam search -/

/-- One successor inside the expansion loops of both search variants: clone,
`advance`, `evaluate_score`, and stamp `first_action` when the depth is `0`.
`none` models the panic of an out-of-bounds `advance`. -/
def mkChild (t : Nat) (now_state : MazeState) (action : Int × Int) : Option MazeState :=
  (now_state.advance action).map (fun ns =>
    let ns := ns.evaluate_score
    if t = 0 then { ns with first_action := action } else ns)

/-- Expansion of one popped state: push every legal successor into the
next-generation frontier. -/
def expandState (t : Nat) (now_state : MazeState) (next_beam : List MazeState) :
    Option (List MazeState) :=
  now_state.generate_legal_actions.foldlM
    (fun nb action => (mkChild t now_state action).map (fun ns => Heap.push nb ns))
    next_beam

/-- The beam-width loop of `beam_search_action`: up to `iters` pops from the
current frontier, each expanded into `next_beam`; an empty pop breaks out.
Returns the remaining current frontier and the grown next frontier. -/
def innerLoop (t : Nat) : Nat → List MazeState → List MazeState →
    Option (List MazeState × List MazeState)
  | 0, now_beam, next_beam => some (now_beam, next_beam)
  | iters + 1, now_beam, next_beam =>
    match Heap.pop now_beam with
    | none => some (now_beam, next_beam)
    | some (now_state, now_rest) =>
      match expandState t now_state next_beam with
      | none => none
      | some next2 => innerLoop t iters now_rest next2

/-- The depth loop of `beam_search_action`, returning the final `best_state`
(whose `first_action` field the search returns). After each depth the
frontier is replaced by the next generation and `best_state` by its top
element — `now_beam.pop().unwrap()` in the source, so `none` models the
panic on an empty next generation. A done best state stops the loop. -/
def bsLoopS (beam_width : Nat) : Nat → Nat → List MazeState → MazeState → Option MazeState
  | 0, _, _, best_state => some best_state
  | d + 1, t, now_beam, _best_state =>
    match innerLoop t beam_width now_beam [] with
    | none => none
    | some (_, next_beam) =>
      match Heap.pop next_beam with
      | none => none
      | some (best2, now2) =>
        if best2.is_done then some best2
        else bsLoopS beam_width d (t + 1) (Heap.push now2 best2) best2

/-- Rust `beam_search_action`: run `beam_depth` depths of beam search from
`state` and return the `first_action` of the best state found. `none` models
a panic. -/
def beam_search_action (state : MazeState) (beam_width beam_depth : Nat) :
    Option (Int × Int) :=
  (bsLoopS beam_width beam_depth 0 (Heap.push [] state) state).map
    (fun b => b.first_action)

/-- Result of the time-bounded search: a returned move, a Rust panic, or
exhaustion of the modelling fuel (the unbounded `for t in 0..` loop was
still running). -/
inductive SearchOutcome where
  | returns (m : Int × Int)
  | panics
  | diverges
deriving DecidableEq, Repr

/-- The beam-width loop of `beam_search_with_time_threshold`: before each
pop-and-expand step the time guard is polled (`k` counts polls); on expiry
the inner loop reports `some (k + 1, none)` and the caller returns. -/
def innerLoopT (timeOver : Nat → Bool) (t : Nat) :
    Nat → Nat → List MazeState → List MazeState →
    Option (Nat × Option (List MazeState × List MazeState))
  | 0, k, now_beam, next_beam => some (k, some (now_beam, next_beam))
  | iters + 1, k, now_beam, next_beam =>
    if timeOver k then some (k + 1, none)
    else
      match Heap.pop now_beam with
      | none => some (k + 1, some (now_beam, next_beam))
      | some (now_state, now_rest) =>
        match expandState t now_state next_beam with
        | none => none
        | some next2 => innerLoopT timeOver t iters (k + 1) now_rest next2

/-- The unbounded depth loop of `beam_search_with_time_threshold`. On expiry
of the guard the current `best_state`'s `first_action` is returned — unless
it still equals the `(0, 0)` placeholder, in which case the source calls
`panic!()`. -/
def bstLoop (timeOver : Nat → Bool) (beam_width : Nat) :
    Nat → Nat → Nat → List MazeState → MazeState → SearchOutcome
  | 0, _, _, _, _ => .diverges
  | fuel + 1, t, k, now_beam, best_state =>
    match innerLoopT timeOver t beam_width k now_beam [] with
    | none => .panics
    | some (_, none) =>
      if best_state.first_action = (0, 0) then .panics
      else .returns best_state.first_action
    | some (k2, some (_, next_beam)) =>
      match Heap.pop next_beam with
      | none => .panics
      | some (best2, now2) =>
        if best2.is_done then .returns best2.first_action
        else bstLoop timeOver beam_width fuel (t + 1) k2 (Heap.push now2 best2) best2

/-- Rust `beam_search_with_time_threshold`. The wall clock is abstracted as
`elapsed`, the stream of millisecond readings seen by successive polls of
`TimeKeeper::is_time_over`. -/
def beam_search_with_time_threshold (state : MazeState) (beam_width : Nat)
    (time_threshold_milseconds : Nat) (elapsed : Nat → Nat) (fuel : Nat) :
    SearchOutcome :=
  bstLoop (fun k => TimeKeeper.is_time_over time_threshold_milseconds (elapsed k))
    beam_width fuel 0 0 (Heap.push [] state) state

/-! ## Predicates and helper definitions used by the proofs -/

/-- Max-heap property of the backing vector: every non-root entry is at most
its parent, comparing `evaluated_score`. -/
def HeapInv (d : List MazeState) : Prop :=
  ∀ j, 0 < j → j < d.length →
    (hget d j).evaluated_score ≤ (hget d ((j - 1) / 2)).evaluated_score

/-- Invariant maintained by `sift_upF`: the vector is a heap except around the
hole at `pos`, the hole's children are at most the element being sifted, and
(when the hole is not the root) the hole's children are at most the hole's
parent. -/
def SiftUpInv (d : List MazeState) (pos : Nat) (elem : MazeState) : Prop :=
  (∀ j, 0 < j → j < d.length → j ≠ pos → (j - 1) / 2 ≠ pos →
      (hget d j).evaluated_score ≤ (hget d ((j - 1) / 2)).evaluated_score) ∧
  (∀ c, 0 < c → c < d.length → (c - 1) / 2 = pos →
      (hget d c).evaluated_score ≤ elem.evaluated_score) ∧
  (0 < pos → ∀ c, 0 < c → c < d.length → (c - 1) / 2 = pos →
      (hget d c).evaluated_score ≤ (hget d ((pos - 1) / 2)).evaluated_score)

/-- Invariant maintained by the hole walk of `sift_down_to_bottom`: the
vector is a heap except around the hole at `pos`, and (when the hole is not
the root) the hole's children are at most the hole's parent. -/
def SdtbInv (d : List MazeState) (pos : Nat) : Prop :=
  (∀ j, 0 < j → j < d.length → j ≠ pos → (j - 1) / 2 ≠ pos →
      (hget d j).evaluated_score ≤ (hget d ((j - 1) / 2)).evaluated_score) ∧
  (0 < pos → ∀ c, 0 < c → c < d.length → (c - 1) / 2 = pos →
      (hget d c).evaluated_score ≤ (hget d ((pos - 1) / 2)).evaluated_score)

/-- Fixed grid dimensions of the data model (established by construction). -/
def ValidDims (s : MazeState) : Prop :=
  s.points.length = H ∧ ∀ row ∈ s.points, row.length = W

/-- The agent position lies inside the grid. -/
def InBounds (s : MazeState) : Prop :=
  0 ≤ s.character.h ∧ s.character.h < (H : Int) ∧
    0 ≤ s.character.w ∧ s.character.w < (W : Int)

/-- All rewards are non-negative (drawn from `[0, 10)` at construction and
only ever zeroed afterwards). -/
def PointsNonneg (s : MazeState) : Prop :=
  ∀ row ∈ s.points, ∀ x ∈ row, 0 ≤ x

/-- The data-model invariant of the spec for reachable states: fixed grid
dimensions, in-bounds position, non-negative rewards and score. -/
def WellFormed (s : MazeState) : Prop :=
  ValidDims s ∧ InBounds s ∧ PointsNonneg s ∧ 0 ≤ s.game_score

instance (s : MazeState) : Decidable (ValidDims s) := by
  unfold ValidDims; infer_instance

instance (s : MazeState) : Decidable (InBounds s) := by
  unfold InBounds; infer_instance

instance (s : MazeState) : Decidable (PointsNonneg s) := by
  unfold PointsNonneg; infer_instance

instance (s : MazeState) : Decidable (WellFormed s) := by
  unfold WellFormed; infer_instance

/-- Bundle of the data-model invariant with the engine's expectation that
`evaluated_score` was recomputed after the last `advance`. -/
def GoodE (x : MazeState) : Prop := WellFormed x ∧ x.evaluated_score = x.game_score

/-- One `advance` with a move that is currently legal (the only way the spec
allows `Advance` to be called); an illegal move is undefined behaviour and
excluded by returning `none`. -/
def stepLegal (s : MazeState) (m : Int × Int) : Option MazeState :=
  if m ∈ s.generate_legal_actions then s.advance m else none

/-- A sequence of legal `advance` calls. -/
def runLegal : MazeState → List (Int × Int) → Option MazeState
  | s, [] => some s
  | s, m :: ms =>
    match stepLegal s m with
    | none => none
    | some s2 => runLegal s2 ms

/-- All-zero reward grid of the reference `30 × 30` dimensions, used to build
concrete test states. -/
def gridZeros : List (List Int) := List.replicate 30 (List.replicate 30 0)

/-- Concrete root state at the corner of an empty grid with one reward of `1`
to the right (cell `(0, 1)`) and one reward of `9` two cells down (cell
`(2, 0)`), at turn `98` (two turns before the limit). -/
def root98 : MazeState :=
  { points := (gridZeros.set 0 ((List.replicate 30 (0 : Int)).set 1 1)).set 2
      ((List.replicate 30 (0 : Int)).set 0 9)
    turns := 98, game_score := 0, evaluated_score := 0
    character := ⟨0, 0⟩, first_action := (0, 0) }

/-- Degenerate state whose position is outside the grid, so that no move is
legal and the search frontier empties immediately. -/
def noMoveState : MazeState :=
  { points := gridZeros, turns := 0, game_score := 0, evaluated_score := 0
    character := ⟨-2, -2⟩, first_action := (0, 0) }

/-- Concrete well-formed root state at turn `0`. -/
def root0 : MazeState :=
  { points := gridZeros, turns := 0, game_score := 0, evaluated_score := 0
    character := ⟨0, 0⟩, first_action := (0, 0) }

/-! ## Basic vector lemmas -/

theorem hget_eq_getElem (d : List MazeState) (i : Nat) (h : i < d.length) :
    hget d i = d[i] := by
  simp [hget, List.getD_eq_getElem?_getD, List.getElem?_eq_getElem h]

theorem hget_set_self (d : List MazeState) (i : Nat) (x : MazeState)
    (h : i < d.length) : hget (d.set i x) i = x := by
  simp [hget, List.getD_eq_getElem?_getD, List.getElem?_set, h]

theorem hget_set_ne (d : List MazeState) {i j : Nat} (hij : i ≠ j) (x : MazeState) :
    hget (d.set i x) j = hget d j := by
  simp [hget, List.getD_eq_getElem?_getD, List.getElem?_set, hij]

theorem hget_append_left (d e : List MazeState) (i : Nat) (h : i < d.length) :
    hget (d ++ e) i = hget d i :=
  List.getD_append d e default i h

theorem mem_of_hget (d : List MazeState) (i : Nat) (h : i < d.length) :
    hget d i ∈ d := by
  rw [hget_eq_getElem d i h]; exact List.getElem_mem h

theorem set_hget_self (l : List MazeState) (k : Nat) (hk : k < l.length) :
    l.set k (hget l k) = l := by
  apply List.ext_getElem
  · simp
  · intro i h1 h2
    rcases eq_or_ne k i with rfl | hne
    · rw [List.getElem_set_self, hget_eq_getElem _ _ hk]
    · rw [List.getElem_set_ne hne]

/-! ## Permutation lemmas for the sift operations -/

theorem set_perm_cons (l : List MazeState) (k : Nat) (x y : MazeState)
    (hk : k < l.length) : List.Perm (y :: l.set k x) (x :: l.set k y) := by
  induction l generalizing k with
  | nil => simp at hk
  | cons a t ih =>
    cases k with
    | zero => simpa using List.Perm.swap x y t
    | succ k =>
      have hk' : k < t.length := by simpa using hk
      simp only [List.set_cons_succ]
      refine List.Perm.trans (List.Perm.swap a y (t.set k x)) ?_
      refine List.Perm.trans (List.Perm.cons a (ih k hk')) ?_
      exact List.Perm.swap x a (t.set k y)

theorem hget_cons_perm (l : List MazeState) (k : Nat) (x : MazeState)
    (hk : k < l.length) : List.Perm (hget l k :: l.set k x) (x :: l) := by
  have := set_perm_cons l k x (hget l k) hk
  rwa [set_hget_self l k hk] at this

theorem set_set_perm (l : List MazeState) {i j : Nat} (hij : i ≠ j)
    (hi : i < l.length) (hj : j < l.length) (x : MazeState) :
    List.Perm ((l.set i (hget l j)).set j x) (l.set i x) := by
  induction l generalizing i j with
  | nil => simp at hi
  | cons a t ih =>
    cases i with
    | zero =>
      cases j with
      | zero => exact absurd rfl hij
      | succ j =>
        have hj' : j < t.length := by simpa using hj
        simp only [List.set_cons_zero, List.set_cons_succ, hget, List.getD_cons_succ]
        exact hget_cons_perm t j x hj'
    | succ i =>
      have hi' : i < t.length := by simpa using hi
      cases j with
      | zero =>
        simp only [List.set_cons_succ, List.set_cons_zero, hget, List.getD_cons_zero]
        exact set_perm_cons t i a x hi'
      | succ j =>
        have hj' : j < t.length := by simpa using hj
        simp only [List.set_cons_succ, hget, List.getD_cons_succ]
        exact List.Perm.cons a (ih (by omega) hi' hj')

theorem length_sift_upF (fuel : Nat) : ∀ (data : List MazeState) (start pos : Nat)
    (elem : MazeState), (sift_upF fuel data start pos elem).length = data.length := by
  induction fuel with
  | zero => intro data start pos elem; simp [sift_upF]
  | succ fuel ih =>
    intro data start pos elem
    simp only [sift_upF]
    split
    · split
      · simp
      · rw [ih]; simp
    · simp

theorem sift_upF_perm (fuel : Nat) : ∀ (data : List MazeState) (start pos : Nat)
    (elem : MazeState), pos < data.length → pos ≤ fuel →
    List.Perm (sift_upF fuel data start pos elem) (data.set pos elem) := by
  induction fuel with
  | zero =>
    intro data start pos elem hlt hle
    interval_cases pos
    exact List.Perm.refl _
  | succ fuel ih =>
    intro data start pos elem hlt hle
    simp only [sift_upF]
    split
    · split
      · exact List.Perm.refl _
      · rename_i hstart _
        have hpos0 : 0 < pos := Nat.lt_of_le_of_lt (Nat.zero_le _) hstart
        have hpar : (pos - 1) / 2 < pos := by omega
        refine List.Perm.trans (ih _ start _ elem ?_ ?_) ?_
        · simpa using Nat.lt_trans hpar hlt
        · omega
        · exact set_set_perm data (Nat.ne_of_gt hpar) hlt (Nat.lt_trans hpar hlt) elem
    · exact List.Perm.refl _

theorem push_perm (d : List MazeState) (x : MazeState) :
    List.Perm (Heap.push d x) (x :: d) := by
  unfold Heap.push sift_up
  have h1 : d.length < (d ++ [x]).length := by simp
  refine List.Perm.trans (sift_upF_perm d.length (d ++ [x]) 0 d.length x h1 le_rfl) ?_
  have h2 : (d ++ [x]).set d.length x = d ++ [x] := by
    rw [List.set_append]
    simp
  rw [h2]
  exact List.perm_append_singleton x d

theorem length_push (d : List MazeState) (x : MazeState) :
    (Heap.push d x).length = d.length + 1 := by
  have := (push_perm d x).length_eq
  simpa using this

theorem mem_push (d : List MazeState) (x y : MazeState) :
    y ∈ Heap.push d x ↔ y = x ∨ y ∈ d := by
  rw [(push_perm d x).mem_iff, List.mem_cons]

theorem push_ne_nil (d : List MazeState) (x : MazeState) : Heap.push d x ≠ [] := by
  intro h
  have := length_push d x
  rw [h] at this
  simp at this

theorem length_sdtbGoF (fuel : Nat) : ∀ (data : List MazeState) (pos len : Nat),
    ((sdtbGoF fuel data pos len).1).length = data.length := by
  induction fuel with
  | zero => intro data pos len; simp [sdtbGoF]
  | succ fuel ih =>
    intro data pos len
    simp only [sdtbGoF]
    split
    · rw [ih]; simp
    · split <;> simp

theorem sdtbGoF_bot_lt (fuel : Nat) : ∀ (data : List MazeState) (pos len : Nat),
    pos < len → (sdtbGoF fuel data pos len).2 < len := by
  induction fuel with
  | zero => intro data pos len h; simpa [sdtbGoF] using h
  | succ fuel ih =>
    intro data pos len h
    simp only [sdtbGoF]
    split
    · split
      · exact ih _ _ _ (by omega)
      · exact ih _ _ _ (by omega)
    · split
      · simpa using by omega
      · simpa using h

theorem sdtbGoF_perm (fuel : Nat) : ∀ (data : List MazeState) (pos len : Nat)
    (x : MazeState), pos < len → len ≤ data.length → len - pos ≤ fuel →
    List.Perm ((sdtbGoF fuel data pos len).1.set (sdtbGoF fuel data pos len).2 x)
      (data.set pos x) := by
  induction fuel with
  | zero => intro data pos len x h1 h2 h3; omega
  | succ fuel ih =>
    intro data pos len x h1 h2 h3
    simp only [sdtbGoF]
    split
    · rename_i hc
      split
      · rename_i hcmp
        refine List.Perm.trans (ih _ _ len x (by omega) (by simpa using h2) (by omega)) ?_
        exact set_set_perm data (by omega) (by omega) (by omega) x
      · rename_i hcmp
        refine List.Perm.trans (ih _ _ len x (by omega) (by simpa using h2) (by omega)) ?_
        exact set_set_perm data (by omega) (by omega) (by omega) x
    · split
      · rename_i hc heq
        simp only
        have hclt : 2 * pos + 1 < len := by omega
        exact set_set_perm data (by omega) (by omega) (by omega) x
      · simp only
        exact List.Perm.refl _

theorem sift_down_to_bottom_perm (data : List MazeState) (len : Nat) (elem : MazeState)
    (h1 : 0 < len) (h2 : len ≤ data.length) :
    List.Perm (sift_down_to_bottom data len elem) (data.set 0 elem) := by
  unfold sift_down_to_bottom
  have hbot := sdtbGoF_bot_lt len data 0 len h1
  have hlen := length_sdtbGoF len data 0 len
  refine List.Perm.trans
    (sift_upF_perm _ _ 0 _ elem (by omega) le_rfl) ?_
  exact sdtbGoF_perm len data 0 len elem h1 h2 (by omega)

theorem pop_eq_none_iff (d : List MazeState) : Heap.pop d = none ↔ d = [] := by
  cases d with
  | nil => simp [Heap.pop]
  | cons a tl =>
    simp only [Heap.pop]
    split <;> simp

theorem pop_cons (a : MazeState) (tl : List MazeState) :
    Heap.pop (a :: tl) =
      (if (a :: tl).dropLast.length = 0
       then some (hget (a :: tl) ((a :: tl).length - 1), ([] : List MazeState))
       else some (hget (a :: tl).dropLast 0,
         sift_down_to_bottom
           ((a :: tl).dropLast.set 0 (hget (a :: tl) ((a :: tl).length - 1)))
           (a :: tl).dropLast.length (hget (a :: tl) ((a :: tl).length - 1)))) := rfl

theorem pop_perm {d : List MazeState} {x : MazeState} {r : List MazeState}
    (h : Heap.pop d = some (x, r)) : List.Perm (x :: r) d := by
  match d with
  | [] => simp [Heap.pop] at h
  | a :: tl =>
    rw [pop_cons] at h
    by_cases hlen : (a :: tl).dropLast.length = 0
    · rw [if_pos hlen] at h
      have htl : tl = [] := by
        have h2 := List.length_dropLast (a :: tl)
        rw [hlen] at h2
        simpa using h2.symm
      subst htl
      have h' := Option.some.inj h
      have hx := congrArg Prod.fst h'
      have hr := congrArg Prod.snd h'
      simp only at hx hr
      subst hx; subst hr
      simp [hget]
    · rw [if_neg hlen] at h
      have h' := Option.some.inj h
      have hx := congrArg Prod.fst h'
      have hr := congrArg Prod.snd h'
      simp only at hx hr
      subst hx; subst hr
      have hdlpos : 0 < (a :: tl).dropLast.length := Nat.pos_of_ne_zero hlen
      have hperm1 : List.Perm
          (sift_down_to_bottom
            ((a :: tl).dropLast.set 0 (hget (a :: tl) ((a :: tl).length - 1)))
            (a :: tl).dropLast.length (hget (a :: tl) ((a :: tl).length - 1)))
          (((a :: tl).dropLast.set 0 (hget (a :: tl) ((a :: tl).length - 1))).set 0
            (hget (a :: tl) ((a :: tl).length - 1))) := by
        refine sift_down_to_bottom_perm _ _ _ hdlpos ?_
        simp
      rw [List.set_set] at hperm1
      refine List.Perm.trans (List.Perm.cons _ hperm1) ?_
      refine List.Perm.trans
        (hget_cons_perm (a :: tl).dropLast 0
          (hget (a :: tl) ((a :: tl).length - 1)) hdlpos) ?_
      have hlast : hget (a :: tl) ((a :: tl).length - 1) = (a :: tl).getLast (by simp) := by
        rw [List.getLast_eq_getElem]
        exact hget_eq_getElem _ _ (by simp)
      rw [hlast]
      refine List.Perm.trans (List.perm_append_singleton _ _).symm ?_
      rw [List.dropLast_append_getLast (l := a :: tl) (by simp)]

/-! ## The max-heap invariant and correctness of the sift operations -/

theorem heapInv_nil : HeapInv [] := by
  intro j hj0 hjlen
  simp at hjlen

theorem heapInv_le_root (d : List MazeState) (hd : HeapInv d) :
    ∀ j, j < d.length → (hget d j).evaluated_score ≤ (hget d 0).evaluated_score := by
  intro j
  induction j using Nat.strong_induction_on with
  | _ j ih =>
    intro hj
    rcases Nat.eq_zero_or_pos j with rfl | hpos
    · exact le_refl _
    · exact le_trans (hd j hpos hj) (ih ((j - 1) / 2) (by omega) (by omega))

theorem heapInv_mem_le_root (d : List MazeState) (hd : HeapInv d) (y : MazeState)
    (hy : y ∈ d) : y.evaluated_score ≤ (hget d 0).evaluated_score := by
  obtain ⟨n, hn, rfl⟩ := List.mem_iff_getElem.mp hy
  rw [← hget_eq_getElem d n hn]
  exact heapInv_le_root d hd n hn

theorem siftUpInv_write (d : List MazeState) (pos : Nat) (elem : MazeState)
    (hlt : pos < d.length) (hinv : SiftUpInv d pos elem)
    (hstop : pos = 0 ∨
      elem.evaluated_score ≤ (hget d ((pos - 1) / 2)).evaluated_score) :
    HeapInv (d.set pos elem) := by
  intro j hj0 hjlen
  rw [List.length_set] at hjlen
  by_cases hjp : j = pos
  · subst hjp
    rw [hget_set_self d j elem hjlen]
    rcases hstop with h0 | hle
    · omega
    · rw [hget_set_ne d (by omega) elem]
      exact hle
  · rw [hget_set_ne d (fun hh => hjp hh.symm) elem]
    by_cases hpp : (j - 1) / 2 = pos
    · rw [hpp, hget_set_self d pos elem hlt]
      exact hinv.2.1 j hj0 hjlen hpp
    · rw [hget_set_ne d (fun hh => hpp hh.symm) elem]
      exact hinv.1 j hj0 hjlen hjp hpp

theorem siftUpInv_step (d : List MazeState) (pos : Nat) (elem : MazeState)
    (hlt : pos < d.length) (hpos : 0 < pos)
    (hgt : (hget d ((pos - 1) / 2)).evaluated_score < elem.evaluated_score)
    (hinv : SiftUpInv d pos elem) :
    SiftUpInv (d.set pos (hget d ((pos - 1) / 2))) ((pos - 1) / 2) elem := by
  have hparlt : (pos - 1) / 2 < pos := by omega
  have hparlen : (pos - 1) / 2 < d.length := by omega
  refine ⟨?_, ?_, ?_⟩
  · intro j hj0 hjlen hne hpne
    rw [List.length_set] at hjlen
    by_cases hjp : j = pos
    · exact absurd (hjp ▸ rfl) hpne
    · rw [hget_set_ne d (fun hh => hjp hh.symm) _]
      by_cases hq : (j - 1) / 2 = pos
      · rw [hq, hget_set_self d pos _ hlt]
        exact hinv.2.2 hpos j hj0 hjlen hq
      · rw [hget_set_ne d (fun hh => hq hh.symm) _]
        exact hinv.1 j hj0 hjlen hjp hq
  · intro c hc0 hclen hcp
    rw [List.length_set] at hclen
    by_cases hcpos : c = pos
    · subst hcpos
      rw [hget_set_self d c _ hlt]
      exact le_of_lt hgt
    · rw [hget_set_ne d (fun hh => hcpos hh.symm) _]
      have hcppos : (c - 1) / 2 ≠ pos := by omega
      refine le_trans (hinv.1 c hc0 hclen hcpos hcppos) ?_
      rw [hcp]
      exact le_of_lt hgt
  · intro hppos c hc0 hclen hcp
    rw [List.length_set] at hclen
    have hgp : ((pos - 1) / 2 - 1) / 2 ≠ pos := by omega
    rw [hget_set_ne d (fun hh => hgp hh.symm) _]
    have hpar_le : (hget d ((pos - 1) / 2)).evaluated_score ≤
        (hget d (((pos - 1) / 2 - 1) / 2)).evaluated_score := by
      refine hinv.1 ((pos - 1) / 2) hppos hparlen (by omega) (by omega)
    by_cases hcpos : c = pos
    · subst hcpos
      rw [hget_set_self d c _ hlt]
      exact hpar_le
    · rw [hget_set_ne d (fun hh => hcpos hh.symm) _]
      have hcppos : (c - 1) / 2 ≠ pos := by omega
      refine le_trans (hinv.1 c hc0 hclen hcpos hcppos) ?_
      rw [hcp]
      exact hpar_le

theorem sift_upF_heapInv (fuel : Nat) : ∀ (d : List MazeState) (pos : Nat)
    (elem : MazeState), pos < d.length → pos ≤ fuel → SiftUpInv d pos elem →
    HeapInv (sift_upF fuel d 0 pos elem) := by
  induction fuel with
  | zero =>
    intro d pos elem hlt hle hinv
    interval_cases pos
    exact siftUpInv_write d 0 elem hlt hinv (Or.inl rfl)
  | succ fuel ih =>
    intro d pos elem hlt hle hinv
    simp only [sift_upF]
    split
    · rename_i hpos
      split
      · rename_i hcmp
        exact siftUpInv_write d pos elem hlt hinv (Or.inr hcmp)
      · rename_i hcmp
        push_neg at hcmp
        refine ih _ ((pos - 1) / 2) elem ?_ ?_ ?_
        · rw [List.length_set]; omega
        · omega
        · exact siftUpInv_step d pos elem hlt hpos hcmp hinv
    · rename_i hpos
      have hp0 : pos = 0 := by omega
      subst hp0
      exact siftUpInv_write d 0 elem hlt hinv (Or.inl rfl)

theorem siftUpInv_push (d : List MazeState) (x : MazeState) (hd : HeapInv d) :
    SiftUpInv (d ++ [x]) d.length x := by
  refine ⟨?_, ?_, ?_⟩
  · intro j hj0 hjlen hne hpne
    rw [List.length_append, List.length_cons, List.length_nil] at hjlen
    have hjd : j < d.length := by omega
    have hpd : (j - 1) / 2 < d.length := by omega
    rw [hget_append_left d [x] j hjd, hget_append_left d [x] _ hpd]
    exact hd j hj0 hjd
  · intro c hc0 hclen hcp
    rw [List.length_append, List.length_cons, List.length_nil] at hclen
    omega
  · intro hpos c hc0 hclen hcp
    rw [List.length_append, List.length_cons, List.length_nil] at hclen
    omega

theorem push_heapInv (d : List MazeState) (x : MazeState) (hd : HeapInv d) :
    HeapInv (Heap.push d x) := by
  unfold Heap.push sift_up
  exact sift_upF_heapInv d.length (d ++ [x]) d.length x (by simp) le_rfl
    (siftUpInv_push d x hd)

theorem sdtbInv_step (d : List MazeState) (pos c2 : Nat)
    (hinv : SdtbInv d pos) (hc2 : (c2 - 1) / 2 = pos) (hc2r : c2 < d.length)
    (hc20 : 0 < c2)
    (hmax : ∀ c, 0 < c → c < d.length → (c - 1) / 2 = pos →
        (hget d c).evaluated_score ≤ (hget d c2).evaluated_score) :
    SdtbInv (d.set pos (hget d c2)) c2 := by
  have hposlt : pos < c2 := by omega
  have hposlen : pos < d.length := by omega
  refine ⟨?_, ?_⟩
  · intro j hj0 hjlen hne hpne
    rw [List.length_set] at hjlen
    by_cases hjp : j = pos
    · subst hjp
      rw [hget_set_self d j _ hposlen]
      have hgpne : (j - 1) / 2 ≠ j := by omega
      rw [hget_set_ne d (fun hh => hgpne hh.symm) _]
      exact hinv.2 hj0 c2 hc20 hc2r hc2
    · rw [hget_set_ne d (fun hh => hjp hh.symm) _]
      by_cases hq : (j - 1) / 2 = pos
      · rw [hq, hget_set_self d pos _ hposlen]
        exact hmax j hj0 hjlen hq
      · rw [hget_set_ne d (fun hh => hq hh.symm) _]
        exact hinv.1 j hj0 hjlen hjp hq
  · intro hc2pos g hg0 hglen hgp
    rw [List.length_set] at hglen
    have hgne : g ≠ pos := by omega
    rw [hget_set_ne d (fun hh => hgne hh.symm) _]
    rw [hc2, hget_set_self d pos _ hposlen]
    have hgppne : (g - 1) / 2 ≠ pos := by omega
    have := hinv.1 g hg0 hglen hgne hgppne
    rwa [hgp] at this

theorem sdtbGoF_inv (fuel : Nat) : ∀ (d : List MazeState) (pos len : Nat),
    len = d.length → pos < len → len - pos ≤ fuel → SdtbInv d pos →
    SdtbInv (sdtbGoF fuel d pos len).1 (sdtbGoF fuel d pos len).2 ∧
      len ≤ 2 * (sdtbGoF fuel d pos len).2 + 1 := by
  induction fuel with
  | zero => intro d pos len hlen h1 h2 hinv; omega
  | succ fuel ih =>
    intro d pos len hlen h1 h2 hinv
    simp only [sdtbGoF]
    split
    · rename_i hc
      split
      · rename_i hcmp
        refine ih _ _ len (by simp [hlen]) (by omega) (by omega) ?_
        refine sdtbInv_step d pos (2 * pos + 1 + 1) hinv (by omega) (by omega)
          (by omega) ?_
        intro c hc0 hclen hcp
        have hcc : c = 2 * pos + 1 ∨ c = 2 * pos + 1 + 1 := by omega
        rcases hcc with rfl | rfl
        · exact hcmp
        · exact le_refl _
      · rename_i hcmp
        refine ih _ _ len (by simp [hlen]) (by omega) (by omega) ?_
        refine sdtbInv_step d pos (2 * pos + 1) hinv (by omega) (by omega)
          (by omega) ?_
        intro c hc0 hclen hcp
        have hcc : c = 2 * pos + 1 ∨ c = 2 * pos + 1 + 1 := by omega
        rcases hcc with rfl | rfl
        · exact le_refl _
        · exact le_of_lt (lt_of_not_le hcmp)
    · rename_i hc
      split
      · rename_i heq
        constructor
        · refine sdtbInv_step d pos (2 * pos + 1) hinv (by omega) (by omega)
            (by omega) ?_
          intro c hc0 hclen hcp
          have hcc : c = 2 * pos + 1 := by omega
          subst hcc
          exact le_refl _
        · simp only
          omega
      · exact ⟨hinv, by simp only; omega⟩

theorem sift_down_to_bottom_heapInv (d : List MazeState) (elem : MazeState)
    (hlen : 0 < d.length) (hinv : SdtbInv d 0) :
    HeapInv (sift_down_to_bottom d d.length elem) := by
  obtain ⟨hinv2, hbot⟩ := sdtbGoF_inv d.length d 0 d.length rfl hlen (by omega) hinv
  have hbotlt := sdtbGoF_bot_lt d.length d 0 d.length hlen
  have hlen1 := length_sdtbGoF d.length d 0 d.length
  unfold sift_down_to_bottom sift_up
  refine sift_upF_heapInv _ _ _ elem (by omega) le_rfl ?_
  refine ⟨hinv2.1, ?_, hinv2.2⟩
  intro c hc0 hclen hcp
  rw [hlen1] at hclen
  omega

theorem hget_dropLast (d : List MazeState) (j : Nat) (h : j < d.length - 1) :
    hget d.dropLast j = hget d j := by
  rw [List.dropLast_eq_take]
  simp only [hget, List.getD_eq_getElem?_getD, List.getElem?_take]
  rw [if_pos h]

theorem heapInv_dropLast (d : List MazeState) (hd : HeapInv d) :
    HeapInv d.dropLast := by
  intro j hj0 hjlen
  rw [List.length_dropLast] at hjlen
  rw [hget_dropLast d j (by omega), hget_dropLast d _ (by omega)]
  exact hd j hj0 (by omega)

theorem pop_root {d : List MazeState} {x : MazeState} {r : List MazeState}
    (h : Heap.pop d = some (x, r)) : x = hget d 0 := by
  match d with
  | [] => simp [Heap.pop] at h
  | a :: tl =>
    rw [pop_cons] at h
    by_cases hlen : (a :: tl).dropLast.length = 0
    · rw [if_pos hlen] at h
      have htl : tl = [] := by
        have h2 := List.length_dropLast (a :: tl)
        rw [hlen] at h2
        simpa using h2.symm
      subst htl
      have hx := congrArg Prod.fst (Option.some.inj h)
      simp only at hx
      exact hx.symm
    · rw [if_neg hlen] at h
      have hx := congrArg Prod.fst (Option.some.inj h)
      simp only at hx
      rw [← hx]
      exact hget_dropLast (a :: tl) 0
        (by have := List.length_dropLast (a :: tl); omega)

theorem pop_heapInv {d : List MazeState} {x : MazeState} {r : List MazeState}
    (hd : HeapInv d) (h : Heap.pop d = some (x, r)) : HeapInv r := by
  match d with
  | [] => simp [Heap.pop] at h
  | a :: tl =>
    rw [pop_cons] at h
    by_cases hlen : (a :: tl).dropLast.length = 0
    · rw [if_pos hlen] at h
      have hr := congrArg Prod.snd (Option.some.inj h)
      simp only at hr
      rw [← hr]
      exact heapInv_nil
    · rw [if_neg hlen] at h
      have hr := congrArg Prod.snd (Option.some.inj h)
      simp only at hr
      rw [← hr]
      have hdlinv : HeapInv (a :: tl).dropLast := heapInv_dropLast _ hd
      have hlset : ((a :: tl).dropLast.length) =
          ((a :: tl).dropLast.set 0 (hget (a :: tl) ((a :: tl).length - 1))).length := by
        simp
      rw [hlset]
      refine sift_down_to_bottom_heapInv _ _
        (by rw [List.length_set]; exact Nat.pos_of_ne_zero hlen) ?_
      refine ⟨?_, fun h0 => absurd h0 (lt_irrefl 0)⟩
      intro j hj0 hjlen hne hpne
      rw [List.length_set] at hjlen
      rw [hget_set_ne _ (fun hh => hj0.ne hh) _, hget_set_ne _ (fun hh => hpne hh.symm) _]
      exact hdlinv j hj0 hjlen

theorem pop_max {d : List MazeState} {x : MazeState} {r : List MazeState}
    (hd : HeapInv d) (h : Heap.pop d = some (x, r)) :
    ∀ y ∈ d, y.evaluated_score ≤ x.evaluated_score := by
  intro y hy
  rw [pop_root h]
  exact heapInv_mem_le_root d hd y hy

theorem pop_mem {d : List MazeState} {x : MazeState} {r : List MazeState}
    (h : Heap.pop d = some (x, r)) : x ∈ d :=
  (pop_perm h).subset (List.mem_cons_self x r)

theorem pop_subset {d : List MazeState} {x : MazeState} {r : List MazeState}
    (h : Heap.pop d = some (x, r)) : ∀ z ∈ r, z ∈ d :=
  fun _ hy => (pop_perm h).subset (List.mem_cons_of_mem x hy)

/-! ## State predicates and basic facts about the maze operations -/

theorem getD_set_self {α : Type} (l : List α) (i : Nat) (x d : α)
    (h : i < l.length) : (l.set i x).getD i d = x := by
  simp [List.getD_eq_getElem?_getD, List.getElem?_set, h]

theorem getD_set_ne {α : Type} (l : List α) {i j : Nat} (hij : i ≠ j) (x d : α) :
    (l.set i x).getD j d = l.getD j d := by
  simp [List.getD_eq_getElem?_getD, List.getElem?_set, hij]

theorem getD_mem {α : Type} (l : List α) (i : Nat) (d : α) (h : i < l.length) :
    l.getD i d ∈ l := by
  rw [List.getD_eq_getElem?_getD, List.getElem?_eq_getElem h]
  exact List.getElem_mem h

theorem mem_legal_iff (s : MazeState) (m : Int × Int) :
    m ∈ s.generate_legal_actions ↔ m ∈ moves ∧
      0 ≤ s.character.w + m.1 ∧ s.character.w + m.1 < (W : Int) ∧
      0 ≤ s.character.h + m.2 ∧ s.character.h + m.2 < (H : Int) := by
  unfold MazeState.generate_legal_actions
  rw [List.mem_filter]
  simp [and_assoc]

theorem legal_sublist (s : MazeState) : s.generate_legal_actions.Sublist moves :=
  List.filter_sublist _

theorem legal_subset_moves (s : MazeState) : ∀ m ∈ s.generate_legal_actions, m ∈ moves :=
  fun _ hm => (legal_sublist s).subset hm

theorem legal_ne_nil_of_inBounds (s : MazeState) (hb : InBounds s) :
    s.generate_legal_actions ≠ [] := by
  obtain ⟨h1, h2, h3, h4⟩ := hb
  by_cases hw : s.character.w + 1 < (W : Int)
  · refine List.ne_nil_of_mem (a := ((1 : Int), (0 : Int))) ?_
    rw [mem_legal_iff]
    refine ⟨by simp [moves], by omega, by omega, by simpa using h1, by simpa using h2⟩
  · refine List.ne_nil_of_mem (a := ((-1 : Int), (0 : Int))) ?_
    rw [mem_legal_iff]
    have hW : (W : Int) = 30 := by norm_num [W]
    refine ⟨by simp [moves], by omega, by omega, by simpa using h1, by simpa using h2⟩

/-- Characterization of a successful `advance`: the bounds that held, the row
that was read, and the exact successor state. -/
theorem advance_inv {s : MazeState} {m : Int × Int} {s2 : MazeState}
    (h : s.advance m = some s2) :
    0 ≤ s.character.h + m.2 ∧ 0 ≤ s.character.w + m.1 ∧
    (s.character.h + m.2).toNat < s.points.length ∧
    ∃ row, s.points.get? (s.character.h + m.2).toNat = some row ∧
      (s.character.w + m.1).toNat < row.length ∧
      s2 = { s with
        character := { h := s.character.h + m.2, w := s.character.w + m.1 }
        game_score := s.game_score + row.getD (s.character.w + m.1).toNat 0
        points := s.points.set (s.character.h + m.2).toNat
          (row.set (s.character.w + m.1).toNat 0)
        turns := s.turns + 1 } := by
  unfold MazeState.advance at h
  simp only at h
  split at h
  · rename_i hpos
    split at h
    · exact absurd h (by simp)
    · rename_i row hrow
      split at h
      · exact absurd h (by simp)
      · rename_i p hp
        have hs2 := Option.some.inj h
        have hjlt : (s.character.w + m.1).toNat < row.length := by
          have := List.get?_eq_some.mp hp
          exact this.1
        have hilt : (s.character.h + m.2).toNat < s.points.length := by
          have := List.get?_eq_some.mp hrow
          exact this.1
        refine ⟨hpos.1, hpos.2, hilt, row, hrow, hjlt, ?_⟩
        rw [← hs2]
        have hpval : p = row.getD (s.character.w + m.1).toNat 0 := by
          obtain ⟨hlt, hval⟩ := List.get?_eq_some.mp hp
          rw [List.getD_eq_getElem?_getD, List.getElem?_eq_getElem hlt]
          simp only [Option.getD_some]
          rw [← hval]
          rfl
        rw [hpval]
  · exact absurd h (by simp)

/-- With valid grid dimensions, `advance` succeeds whenever the target cell
is inside the grid. -/
theorem advance_some_of_bounds (s : MazeState) (m : Int × Int) (hd : ValidDims s)
    (h0w : 0 ≤ s.character.w + m.1) (hw : s.character.w + m.1 < (W : Int))
    (h0h : 0 ≤ s.character.h + m.2) (hh : s.character.h + m.2 < (H : Int)) :
    ∃ s2, s.advance m = some s2 := by
  have hilt : (s.character.h + m.2).toNat < s.points.length := by
    rw [hd.1]; omega
  rw [← Option.isSome_iff_exists]
  unfold MazeState.advance
  simp only
  rw [if_pos ⟨h0h, h0w⟩]
  split
  · rename_i hnone
    rw [List.get?_eq_none] at hnone
    omega
  · rename_i row hrow
    split
    · rename_i hnone
      rw [List.get?_eq_none] at hnone
      have hmem : row ∈ s.points := List.get?_mem hrow
      rw [hd.2 _ hmem] at hnone
      omega
    · simp

/-- Full characterization of a successful `advance` from a state with valid
grid dimensions. -/
theorem advance_facts {s : MazeState} {m : Int × Int} {s2 : MazeState}
    (hd : ValidDims s) (h : s.advance m = some s2) :
    ValidDims s2 ∧ InBounds s2 ∧
    s2.character.h = s.character.h + m.2 ∧ s2.character.w = s.character.w + m.1 ∧
    s2.turns = s.turns + 1 ∧ s2.evaluated_score = s.evaluated_score ∧
    s2.first_action = s.first_action ∧
    s2.game_score = s.game_score +
      pointsAt s (s.character.h + m.2).toNat (s.character.w + m.1).toNat ∧
    pointsAt s2 (s.character.h + m.2).toNat (s.character.w + m.1).toNat = 0 ∧
    (∀ i j : Nat, ¬(i = (s.character.h + m.2).toNat ∧ j = (s.character.w + m.1).toNat) →
      pointsAt s2 i j = pointsAt s i j) ∧
    (PointsNonneg s →
      PointsNonneg s2 ∧
      0 ≤ pointsAt s (s.character.h + m.2).toNat (s.character.w + m.1).toNat) := by
  obtain ⟨h0h, h0w, hilt, row, hrow, hjlt, hs2⟩ := advance_inv h
  have hrowmem : row ∈ s.points := List.get?_mem hrow
  have hrowW : row.length = W := hd.2 _ hrowmem
  have hrowD : s.points.getD (s.character.h + m.2).toNat [] = row := by
    rw [List.getD_eq_getElem?_getD, ← List.get?_eq_getElem?, hrow]
    rfl
  have hpAt : pointsAt s (s.character.h + m.2).toNat (s.character.w + m.1).toNat =
      row.getD (s.character.w + m.1).toNat 0 := by
    unfold pointsAt
    rw [hrowD]
  subst hs2
  refine ⟨?_, ?_, rfl, rfl, rfl, rfl, rfl, ?_, ?_, ?_, ?_⟩
  · constructor
    · simpa using hd.1
    · intro row2 hrow2
      rcases List.mem_or_eq_of_mem_set hrow2 with hmem | heq
      · exact hd.2 _ hmem
      · subst heq
        simpa using hrowW
  · have hH := hd.1
    refine ⟨by simpa using h0h, ?_, by simpa using h0w, ?_⟩
    · simp only
      omega
    · simp only
      rw [hrowW] at hjlt
      omega
  · simp only
    rw [hpAt]
  · unfold pointsAt
    simp only
    rw [getD_set_self _ _ _ _ hilt, getD_set_self _ _ _ _ hjlt]
  · intro i j hij
    unfold pointsAt
    simp only
    by_cases hi : (s.character.h + m.2).toNat = i
    · subst hi
      rw [getD_set_self _ _ _ _ hilt, hrowD]
      have hjne : (s.character.w + m.1).toNat ≠ j := by
        intro hc; exact hij ⟨rfl, hc.symm⟩
      rw [getD_set_ne _ hjne]
    · rw [getD_set_ne _ hi]
  · intro hnn
    constructor
    · intro row2 hrow2 x hx
      rcases List.mem_or_eq_of_mem_set hrow2 with hmem | heq
      · exact hnn _ hmem _ hx
      · subst heq
        rcases List.mem_or_eq_of_mem_set hx with hmem2 | heq2
        · exact hnn _ hrowmem _ hmem2
        · simp [heq2]
    · rw [hpAt]
      exact hnn _ hrowmem _ (getD_mem _ _ _ hjlt)

/-! ## Expansion lemmas for the beam search loops -/

theorem push_mem_self (d : List MazeState) (x : MazeState) : x ∈ Heap.push d x :=
  (mem_push d x x).mpr (Or.inl rfl)

theorem push_mem_of_mem (d : List MazeState) (x y : MazeState) (hy : y ∈ d) :
    y ∈ Heap.push d x :=
  (mem_push d x y).mpr (Or.inr hy)

theorem push_nil (x : MazeState) : Heap.push [] x = [x] := rfl

theorem pop_singleton (x : MazeState) : Heap.pop [x] = some (x, []) := rfl

theorem mkChild_facts (t : Nat) (s : MazeState) (a : Int × Int)
    (hd : ValidDims s) (ha : a ∈ s.generate_legal_actions) :
    ∃ c, mkChild t s a = some c ∧
      ValidDims c ∧ InBounds c ∧
      c.evaluated_score = c.game_score ∧
      onePlyScore s a = some c.game_score ∧
      c.turns = s.turns + 1 ∧
      c.first_action = (if t = 0 then a else s.first_action) ∧
      (PointsNonneg s → PointsNonneg c ∧ s.game_score ≤ c.game_score) := by
  have hb := (mem_legal_iff s a).mp ha
  obtain ⟨s2, h2⟩ := advance_some_of_bounds s a hd hb.2.1 hb.2.2.1 hb.2.2.2.1 hb.2.2.2.2
  obtain ⟨hvd, hib, hch, hcw, ht, hev, hfa, hgs, hz, ho, hnn⟩ := advance_facts hd h2
  refine ⟨if t = 0 then { s2.evaluate_score with first_action := a }
    else s2.evaluate_score, ?_, ?_, ?_, ?_, ?_, ?_, ?_, ?_⟩
  · unfold mkChild
    rw [h2]
    rfl
  · split <;> exact hvd
  · split <;> exact hib
  · split <;> simp [MazeState.evaluate_score]
  · unfold onePlyScore
    rw [h2]
    split <;> simp [MazeState.evaluate_score]
  · split <;> simpa [MazeState.evaluate_score] using ht
  · split
    · simp
    · simpa [MazeState.evaluate_score] using hfa
  · intro hp
    obtain ⟨hp2, hp3⟩ := hnn hp
    constructor
    · split <;> exact hp2
    · have : s.game_score ≤ s2.game_score := by rw [hgs]; omega
      split <;> simpa [MazeState.evaluate_score] using this

theorem expand_go (t : Nat) (Qx : MazeState → Prop) (st : MazeState) :
    ∀ (acts : List (Int × Int)) (next : List MazeState),
    (∀ a ∈ acts, ∃ c, mkChild t st a = some c ∧ Qx c) →
    (∀ y ∈ next, Qx y) → HeapInv next →
    ∃ next2, acts.foldlM
        (fun nb action => (mkChild t st action).map (fun ns => Heap.push nb ns))
        next = some next2 ∧
      (∀ y ∈ next2, Qx y) ∧ HeapInv next2 ∧ (∀ y ∈ next, y ∈ next2) ∧
      (∀ a ∈ acts, ∀ c, mkChild t st a = some c → c ∈ next2) := by
  intro acts
  induction acts with
  | nil =>
    intro next hacts hQ hinv
    exact ⟨next, rfl, hQ, hinv, fun y hy => hy, by simp⟩
  | cons a rest ih =>
    intro next hacts hQ hinv
    obtain ⟨c, hc, hQc⟩ := hacts a (List.mem_cons_self a rest)
    obtain ⟨next2, hfold, hQ2, hinv2, hsub2, hch2⟩ := ih (Heap.push next c)
      (fun x hx => hacts x (List.mem_cons_of_mem a hx))
      (fun y hy => by
        rcases (mem_push next c y).mp hy with rfl | hy2
        · exact hQc
        · exact hQ y hy2)
      (push_heapInv next c hinv)
    refine ⟨next2, ?_, hQ2, hinv2, ?_, ?_⟩
    · rw [List.foldlM_cons, hc]
      simpa using hfold
    · intro y hy
      exact hsub2 y (push_mem_of_mem next c y hy)
    · intro a2 ha2 c2 hc2
      rcases List.mem_cons.mp ha2 with rfl | ha3
    -- first action: its child is c
      · rw [hc] at hc2
        obtain rfl := Option.some.inj hc2
        exact hsub2 _ (push_mem_self next c)
      · exact hch2 a2 ha3 c2 hc2

theorem expandState_pres (t : Nat) (Qx : MazeState → Prop) (st : MazeState)
    (hst : ∀ a ∈ st.generate_legal_actions, ∃ c, mkChild t st a = some c ∧ Qx c)
    (next : List MazeState) (hQ : ∀ y ∈ next, Qx y) (hinv : HeapInv next) :
    ∃ next2, expandState t st next = some next2 ∧
      (∀ y ∈ next2, Qx y) ∧ HeapInv next2 ∧ (∀ y ∈ next, y ∈ next2) ∧
      (∀ a ∈ st.generate_legal_actions, ∀ c, mkChild t st a = some c → c ∈ next2) :=
  expand_go t Qx st st.generate_legal_actions next hst hQ hinv

theorem innerLoop_succ_none (t iters : Nat) {now next : List MazeState}
    (hpop : Heap.pop now = none) :
    innerLoop t (iters + 1) now next = some (now, next) := by
  simp only [innerLoop, hpop]

theorem innerLoop_succ_expand (t iters : Nat) {now next : List MazeState}
    {st : MazeState} {now1 next1 : List MazeState}
    (hpop : Heap.pop now = some (st, now1))
    (hexp : expandState t st next = some next1) :
    innerLoop t (iters + 1) now next = innerLoop t iters now1 next1 := by
  simp only [innerLoop, hpop, hexp]

theorem innerLoop_pres (t : Nat) (Qn Qx : MazeState → Prop)
    (hstep : ∀ st, Qn st → ∀ a ∈ st.generate_legal_actions,
      ∃ c, mkChild t st a = some c ∧ Qx c) :
    ∀ (iters : Nat) (now next : List MazeState),
    (∀ y ∈ now, Qn y) → (∀ y ∈ next, Qx y) → HeapInv next →
    ∃ now2 next2, innerLoop t iters now next = some (now2, next2) ∧
      (∀ y ∈ now2, Qn y) ∧ (∀ y ∈ next2, Qx y) ∧ HeapInv next2 ∧
      (∀ y ∈ next, y ∈ next2) := by
  intro iters
  induction iters with
  | zero =>
    intro now next hn hx hinv
    exact ⟨now, next, rfl, hn, hx, hinv, fun y hy => hy⟩
  | succ iters ih =>
    intro now next hn hx hinv
    cases hpop : Heap.pop now with
    | none =>
      rw [innerLoop_succ_none t iters hpop]
      exact ⟨now, next, rfl, hn, hx, hinv, fun y hy => hy⟩
    | some pair =>
      obtain ⟨st, now1⟩ := pair
      have hstQ : Qn st := hn st (pop_mem hpop)
      obtain ⟨next1, hexp, hQ1, hinv1, hsub1, _⟩ :=
        expandState_pres t Qx st (hstep st hstQ) next hx hinv
      rw [innerLoop_succ_expand t iters hpop hexp]
      obtain ⟨now2, next2, hloop, h1, h2, h3, h4⟩ := ih now1 next1
        (fun y hy => hn y (pop_subset hpop y hy)) hQ1 hinv1
      exact ⟨now2, next2, hloop, h1, h2, h3, fun y hy => h4 y (hsub1 y hy)⟩

theorem innerLoop_nil_now (t : Nat) : ∀ (iters : Nat) (next : List MazeState),
    innerLoop t iters [] next = some ([], next) := by
  intro iters next
  cases iters with
  | zero => rfl
  | succ iters => rfl

theorem bsLoopS_zero (w t : Nat) (now : List MazeState) (b : MazeState) :
    bsLoopS w 0 t now b = some b := rfl

theorem bsLoopS_succ_inner (w d t : Nat) {now nowR next : List MazeState}
    {b best2 : MazeState} {now2 : List MazeState}
    (hinner : innerLoop t w now [] = some (nowR, next))
    (hpop : Heap.pop next = some (best2, now2)) :
    bsLoopS w (d + 1) t now b =
      (if best2.is_done then some best2
       else bsLoopS w d (t + 1) (Heap.push now2 best2) best2) := by
  simp only [bsLoopS, hinner, hpop]

theorem bsLoopS_succ_popnone (w d t : Nat) {now nowR next : List MazeState}
    {b : MazeState} (hinner : innerLoop t w now [] = some (nowR, next))
    (hpop : Heap.pop next = none) :
    bsLoopS w (d + 1) t now b = none := by
  simp only [bsLoopS, hinner, hpop]

theorem goodE_step (t : Nat) (st : MazeState) (hst : GoodE st) :
    ∀ a ∈ st.generate_legal_actions, ∀ c, mkChild t st a = some c → GoodE c := by
  intro a ha c hc
  obtain ⟨c', hc', hvd, hib, heg, _, _, _, hnn⟩ := mkChild_facts t st a hst.1.1 ha
  rw [hc] at hc'
  obtain rfl := Option.some.inj hc'
  refine ⟨⟨hvd, hib, (hnn hst.1.2.2.1).1, ?_⟩, heg⟩
  exact le_trans hst.1.2.2.2 (hnn hst.1.2.2.1).2

/-- Main induction over the depth loop of `beam_search_action`: for any
property `Q` implying the data-model invariant and preserved by expansion at
depths `t ≥ 1`, the loop never panics and the final best state satisfies `Q`
and scores at least the incoming best state (which must sit in the current
frontier). -/
theorem bsLoopS_strong (w : Nat) (Q : MazeState → Prop)
    (hQwf : ∀ x, Q x → GoodE x)
    (hQstep : ∀ t, 1 ≤ t → ∀ st, Q st → ∀ a ∈ st.generate_legal_actions,
        ∀ c, mkChild t st a = some c → Q c) :
    ∀ (d t : Nat), 1 ≤ t → 1 ≤ w →
    ∀ (now : List MazeState) (best : MazeState),
    (∀ y ∈ now, Q y) → HeapInv now → best ∈ now →
    ∃ bf, bsLoopS w d t now best = some bf ∧ Q bf ∧
      best.evaluated_score ≤ bf.evaluated_score := by
  intro d
  induction d with
  | zero =>
    intro t ht hw now best hQ hinv hmem
    exact ⟨best, rfl, hQ best hmem, le_refl _⟩
  | succ d ih =>
    intro t ht hw now best hQ hinv hmem
    obtain ⟨w1, hww⟩ : ∃ w1, w = w1 + 1 := ⟨w - 1, by omega⟩
    have hnow_ne : now ≠ [] := List.ne_nil_of_mem hmem
    have hstepAll : ∀ st, Q st → ∀ a ∈ st.generate_legal_actions,
        ∃ c, mkChild t st a = some c ∧ Q c := by
      intro st hst a ha
      obtain ⟨c, hc, _⟩ := mkChild_facts t st a ((hQwf st hst).1.1) ha
      exact ⟨c, hc, hQstep t ht st hst a ha c hc⟩
    obtain ⟨pair, hpop⟩ : ∃ pair, Heap.pop now = some pair := by
      cases hp : Heap.pop now with
      | none => exact absurd ((pop_eq_none_iff now).mp hp) hnow_ne
      | some p => exact ⟨p, rfl⟩
    obtain ⟨x0, now1⟩ := pair
    have hx0Q : Q x0 := hQ x0 (pop_mem hpop)
    have hx0max : best.evaluated_score ≤ x0.evaluated_score :=
      pop_max hinv hpop best hmem
    obtain ⟨hx0wf, hx0eg⟩ := hQwf x0 hx0Q
    obtain ⟨next1, hexp, hQn1, hinvn1, _, hch⟩ :=
      expandState_pres t Q x0 (hstepAll x0 hx0Q) [] (by simp) heapInv_nil
    have hlne : x0.generate_legal_actions ≠ [] :=
      legal_ne_nil_of_inBounds x0 hx0wf.2.1
    obtain ⟨a0, ha0⟩ : ∃ a0, a0 ∈ x0.generate_legal_actions := by
      cases hxl : x0.generate_legal_actions with
      | nil => exact absurd hxl hlne
      | cons a rest => exact ⟨a, hxl ▸ List.mem_cons_self a rest⟩
    obtain ⟨c0, hc0, _, _, hc0eg, hc0k, _, _, hc0nn⟩ :=
      mkChild_facts t x0 a0 hx0wf.1 ha0
    have hc0mem : c0 ∈ next1 := hch a0 ha0 c0 hc0
    have hc0ge : x0.evaluated_score ≤ c0.evaluated_score := by
      rw [hc0eg, hx0eg]
      exact (hc0nn hx0wf.2.2.1).2
    obtain ⟨now2, nextF, hloop, _, hQF, hinvF, hsubF⟩ :=
      innerLoop_pres t Q Q hstepAll w1 now1 next1
        (fun y hy => hQ y (pop_subset hpop y hy)) hQn1 hinvn1
    have hinner : innerLoop t w now [] = some (now2, nextF) := by
      rw [hww, innerLoop_succ_expand t w1 hpop hexp, hloop]
    have hc0memF : c0 ∈ nextF := hsubF c0 hc0mem
    obtain ⟨pair2, hpop2⟩ : ∃ p2, Heap.pop nextF = some p2 := by
      cases hp : Heap.pop nextF with
      | none =>
        exact absurd ((pop_eq_none_iff nextF).mp hp) (List.ne_nil_of_mem hc0memF)
      | some p => exact ⟨p, rfl⟩
    obtain ⟨best2, now3⟩ := pair2
    have hb2max : c0.evaluated_score ≤ best2.evaluated_score :=
      pop_max hinvF hpop2 c0 hc0memF
    have hb2Q : Q best2 := hQF best2 (pop_mem hpop2)
    have hchain : best.evaluated_score ≤ best2.evaluated_score :=
      le_trans hx0max (le_trans hc0ge hb2max)
    rw [bsLoopS_succ_inner w d t hinner hpop2]
    by_cases hdone : best2.is_done = true
    · rw [if_pos hdone]
      exact ⟨best2, rfl, hb2Q, hchain⟩
    · rw [if_neg hdone]
      obtain ⟨bf, hbf, hbfQ, hbfge⟩ := ih (t + 1) (by omega) hw
        (Heap.push now3 best2) best2
        (fun y hy => by
          rcases (mem_push now3 best2 y).mp hy with rfl | hy2
          · exact hb2Q
          · exact hQF y (pop_subset hpop2 y hy2))
        (push_heapInv now3 best2 (pop_heapInv hinvF hpop2))
        (push_mem_self now3 best2)
      exact ⟨bf, hbf, hbfQ, le_trans hchain hbfge⟩

/-! ## The greedy policy as a first-argmax computation -/

theorem greedy_fold (s : MazeState) (hd : ValidDims s) :
    ∀ (acts : List (Int × Int)) (b : Int × (Int × Int)),
    (∀ a ∈ acts, a ∈ s.generate_legal_actions) →
    ∃ r, acts.foldlM (greedyStep s) b = some r ∧
      ((r = b ∧ ∀ a ∈ acts, ∀ k, onePlyScore s a = some k → k ≤ b.1) ∨
       (∃ l1 a l2, acts = l1 ++ a :: l2 ∧ onePlyScore s a = some r.1 ∧ r.2 = a ∧
         b.1 < r.1 ∧
         (∀ x ∈ l1, ∀ k, onePlyScore s x = some k → k < r.1) ∧
         (∀ x ∈ l2, ∀ k, onePlyScore s x = some k → k ≤ r.1))) := by
  intro acts
  induction acts with
  | nil =>
    intro b _
    exact ⟨b, rfl, Or.inl ⟨rfl, by simp⟩⟩
  | cons a rest ih =>
    intro b hacts
    have ha' : a ∈ s.generate_legal_actions := hacts a (List.mem_cons_self a rest)
    have hb := (mem_legal_iff s a).mp ha'
    obtain ⟨s2, h2⟩ := advance_some_of_bounds s a hd hb.2.1 hb.2.2.1 hb.2.2.2.1 hb.2.2.2.2
    have hkey : onePlyScore s a = some s2.game_score := by
      unfold onePlyScore
      rw [h2]
      simp [MazeState.evaluate_score]
    have hstep : greedyStep s b a =
        some (if b.1 < s2.game_score then (s2.game_score, a) else b) := by
      unfold greedyStep
      rw [h2]
      simp [MazeState.evaluate_score]
    have hrest : ∀ x ∈ rest, x ∈ s.generate_legal_actions :=
      fun x hx => hacts x (List.mem_cons_of_mem a hx)
    by_cases hlt : b.1 < s2.game_score
    · rw [if_pos hlt] at hstep
      obtain ⟨r, hr, hcase⟩ := ih (s2.game_score, a) hrest
      refine ⟨r, ?_, ?_⟩
      · rw [List.foldlM_cons, hstep]
        simpa using hr
      · rcases hcase with ⟨hrb, hbound⟩ | ⟨l1, x, l2, heq, hx1, hx2, hxlt, hl1, hl2⟩
        · refine Or.inr ⟨[], a, rest, by simp, ?_, ?_, ?_, by simp, ?_⟩
          · rw [hrb]; exact hkey
          · rw [hrb]
          · rw [hrb]; exact hlt
          · intro x hx k hk
            have := hbound x hx k hk
            rw [hrb]
            exact this
        · refine Or.inr ⟨a :: l1, x, l2, by rw [heq, List.cons_append], hx1, hx2, ?_,
            ?_, hl2⟩
          · exact lt_trans hlt hxlt
          · intro y hy k hk
            rcases List.mem_cons.mp hy with rfl | hy2
            · rw [hkey] at hk
              obtain rfl := Option.some.inj hk
              exact lt_of_le_of_lt (le_refl _) hxlt
            · exact hl1 y hy2 k hk
    · rw [if_neg hlt] at hstep
      obtain ⟨r, hr, hcase⟩ := ih b hrest
      refine ⟨r, ?_, ?_⟩
      · rw [List.foldlM_cons, hstep]
        simpa using hr
      · rcases hcase with ⟨hrb, hbound⟩ | ⟨l1, x, l2, heq, hx1, hx2, hxlt, hl1, hl2⟩
        · refine Or.inl ⟨hrb, ?_⟩
          intro y hy k hk
          rcases List.mem_cons.mp hy with rfl | hy2
          · rw [hkey] at hk
            obtain rfl := Option.some.inj hk
            exact le_of_not_lt hlt
          · exact hbound y hy2 k hk
        · refine Or.inr ⟨a :: l1, x, l2, by rw [heq, List.cons_append], hx1, hx2, hxlt,
            ?_, hl2⟩
          intro y hy k hk
          rcases List.mem_cons.mp hy with rfl | hy2
          · rw [hkey] at hk
            obtain rfl := Option.some.inj hk
            exact lt_of_le_of_lt (le_of_not_lt hlt) hxlt
          · exact hl1 y hy2 k hk

/-- For a well-formed state with at least one legal move, `greedy_action`
returns the first legal move attaining the maximal one-ply score. -/
theorem greedy_max (s : MazeState) (hwf : WellFormed s)
    (hne : s.generate_legal_actions ≠ []) :
    ∃ g gk, greedy_action s = some g ∧ g ∈ s.generate_legal_actions ∧
      onePlyScore s g = some gk ∧ 0 ≤ gk ∧
      (∀ a ∈ s.generate_legal_actions, ∀ k, onePlyScore s a = some k → k ≤ gk) ∧
      (∃ l1 l2, s.generate_legal_actions = l1 ++ g :: l2 ∧
        (∀ x ∈ l1, ∀ k, onePlyScore s x = some k → k < gk)) := by
  obtain ⟨r, hr, hcase⟩ := greedy_fold s hwf.1 s.generate_legal_actions
    ((-1 : Int), ((-1 : Int), (-1 : Int))) (fun a ha => ha)
  have hkeys : ∀ a ∈ s.generate_legal_actions, ∃ k, onePlyScore s a = some k ∧ 0 ≤ k := by
    intro a ha
    have hb := (mem_legal_iff s a).mp ha
    obtain ⟨s2, h2⟩ := advance_some_of_bounds s a hwf.1 hb.2.1 hb.2.2.1 hb.2.2.2.1
      hb.2.2.2.2
    refine ⟨s2.game_score, ?_, ?_⟩
    · unfold onePlyScore
      rw [h2]
      simp [MazeState.evaluate_score]
    · obtain ⟨_, _, _, _, _, _, _, hgs, _, _, hnn⟩ := advance_facts hwf.1 h2
      have := (hnn hwf.2.2.1).2
      rw [hgs]
      have := hwf.2.2.2
      omega
  rcases hcase with ⟨hrb, hbound⟩ | ⟨l1, g, l2, heq, hg1, hg2, hglt, hl1, hl2⟩
  · exfalso
    obtain ⟨a0, ha0⟩ : ∃ a0, a0 ∈ s.generate_legal_actions := by
      cases hxl : s.generate_legal_actions with
      | nil => exact absurd hxl hne
      | cons a rest => exact ⟨a, hxl ▸ List.mem_cons_self a rest⟩
    obtain ⟨k0, hk0, hk0nn⟩ := hkeys a0 ha0
    have := hbound a0 ha0 k0 hk0
    simp only [Prod.fst] at this
    omega
  · have hgmem : g ∈ s.generate_legal_actions := by
      rw [heq]
      exact List.mem_append_right l1 (List.mem_cons_self g l2)
    refine ⟨g, r.1, ?_, hgmem, hg1, ?_, ?_, l1, l2, heq, hl1⟩
    · unfold greedy_action
      rw [hr]
      simp [hg2]
    · obtain ⟨k, hk, hknn⟩ := hkeys g hgmem
      rw [hg1] at hk
      obtain rfl := Option.some.inj hk
      exact hknn
    · intro a ha k hk
      rw [heq] at ha
      rcases List.mem_append.mp ha with hal | har
      · exact le_of_lt (hl1 a hal k hk)
      · rcases List.mem_cons.mp har with rfl | hal2
        · rw [hg1] at hk
          obtain rfl := Option.some.inj hk
          exact le_refl _
        · exact hl2 a hal2 k hk

/-- Full behaviour of the depth-bounded search on a well-formed root: the
loop never panics, the final best state satisfies any property `Q` that
holds of the depth-0 successors and is preserved by deeper expansions, and
its score dominates the score of every depth-0 successor. -/
theorem beam_search_main (root : MazeState) (w d : Nat) (Q : MazeState → Prop)
    (hQwf : ∀ x, Q x → GoodE x)
    (hQ0 : ∀ a ∈ root.generate_legal_actions, ∀ c, mkChild 0 root a = some c → Q c)
    (hQstep : ∀ t, 1 ≤ t → ∀ st, Q st → ∀ a ∈ st.generate_legal_actions,
        ∀ c, mkChild t st a = some c → Q c)
    (hroot : WellFormed root) (hw : 1 ≤ w) (hd : 1 ≤ d) :
    ∃ bf, bsLoopS w d 0 (Heap.push [] root) root = some bf ∧ Q bf ∧
      (∀ a ∈ root.generate_legal_actions, ∀ c, mkChild 0 root a = some c →
        c.evaluated_score ≤ bf.evaluated_score) := by
  obtain ⟨d1, hdd⟩ : ∃ d1, d = d1 + 1 := ⟨d - 1, by omega⟩
  obtain ⟨w1, hww⟩ : ∃ w1, w = w1 + 1 := ⟨w - 1, by omega⟩
  subst hdd
  rw [push_nil]
  have hstep0 : ∀ a ∈ root.generate_legal_actions,
      ∃ c, mkChild 0 root a = some c ∧ Q c := by
    intro a ha
    obtain ⟨c, hc, _⟩ := mkChild_facts 0 root a hroot.1 ha
    exact ⟨c, hc, hQ0 a ha c hc⟩
  obtain ⟨next1, hexp, hQn1, hinvn1, _, hch⟩ :=
    expandState_pres 0 Q root hstep0 [] (by simp) heapInv_nil
  have hinner : innerLoop 0 w [root] [] = some ([], next1) := by
    rw [hww, innerLoop_succ_expand 0 w1 (pop_singleton root) hexp,
      innerLoop_nil_now]
  have hlne : root.generate_legal_actions ≠ [] :=
    legal_ne_nil_of_inBounds root hroot.2.1
  obtain ⟨a0, ha0⟩ : ∃ a0, a0 ∈ root.generate_legal_actions := by
    cases hxl : root.generate_legal_actions with
    | nil => exact absurd hxl hlne
    | cons a rest => exact ⟨a, hxl ▸ List.mem_cons_self a rest⟩
  obtain ⟨c0, hc0, _⟩ := hstep0 a0 ha0
  have hc0mem : c0 ∈ next1 := hch a0 ha0 c0 hc0
  obtain ⟨pair2, hpop2⟩ : ∃ p2, Heap.pop next1 = some p2 := by
    cases hp : Heap.pop next1 with
    | none => exact absurd ((pop_eq_none_iff next1).mp hp) (List.ne_nil_of_mem hc0mem)
    | some p => exact ⟨p, rfl⟩
  obtain ⟨best1, now3⟩ := pair2
  have hb1Q : Q best1 := hQn1 best1 (pop_mem hpop2)
  have hb1max : ∀ c ∈ next1, c.evaluated_score ≤ best1.evaluated_score :=
    pop_max hinvn1 hpop2
  rw [bsLoopS_succ_inner w d1 0 hinner hpop2]
  by_cases hdone : best1.is_done = true
  · rw [if_pos hdone]
    refine ⟨best1, rfl, hb1Q, ?_⟩
    intro a ha c hc
    exact hb1max c (hch a ha c hc)
  · rw [if_neg hdone]
    obtain ⟨bf, hbf, hbfQ, hbfge⟩ := bsLoopS_strong w Q hQwf hQstep d1 1 le_rfl hw
      (Heap.push now3 best1) best1
      (fun y hy => by
        rcases (mem_push now3 best1 y).mp hy with rfl | hy2
        · exact hb1Q
        · exact hQn1 y (pop_subset hpop2 y hy2))
      (push_heapInv now3 best1 (pop_heapInv hinvn1 hpop2))
      (push_mem_self now3 best1)
    refine ⟨bf, hbf, hbfQ, ?_⟩
    intro a ha c hc
    exact le_trans (hb1max c (hch a ha c hc)) hbfge

/-! ## Unfolding lemmas for the time-bounded search -/

theorem innerLoopT_timeout {tO : Nat → Bool} (t iters k : Nat)
    {now next : List MazeState} (h : tO k = true) :
    innerLoopT tO t (iters + 1) k now next = some (k + 1, none) := by
  simp only [innerLoopT, h]
  rfl

theorem innerLoopT_popnone {tO : Nat → Bool} (t iters k : Nat)
    {now next : List MazeState} (h1 : tO k = false) (h2 : Heap.pop now = none) :
    innerLoopT tO t (iters + 1) k now next = some (k + 1, some (now, next)) := by
  simp only [innerLoopT, h1, h2]
  rfl

theorem innerLoopT_expand {tO : Nat → Bool} (t iters k : Nat)
    {now next : List MazeState} {st : MazeState} {now1 next1 : List MazeState}
    (h1 : tO k = false) (h2 : Heap.pop now = some (st, now1))
    (h3 : expandState t st next = some next1) :
    innerLoopT tO t (iters + 1) k now next = innerLoopT tO t iters (k + 1) now1 next1 := by
  simp only [innerLoopT, h1, h2, h3]
  rfl

theorem bstLoop_timeoutRes {tO : Nat → Bool} {w fuel t k k2 : Nat}
    {now : List MazeState} {best : MazeState}
    (h : innerLoopT tO t w k now [] = some (k2, none)) :
    bstLoop tO w (fuel + 1) t k now best =
      (if best.first_action = (0, 0) then .panics else .returns best.first_action) := by
  simp only [bstLoop, h]

theorem bstLoop_popnone {tO : Nat → Bool} {w fuel t k k2 : Nat}
    {now nowR next : List MazeState} {best : MazeState}
    (hinner : innerLoopT tO t w k now [] = some (k2, some (nowR, next)))
    (hpop : Heap.pop next = none) :
    bstLoop tO w (fuel + 1) t k now best = .panics := by
  simp only [bstLoop, hinner, hpop]

theorem bstLoop_inner {tO : Nat → Bool} {w fuel t k k2 : Nat}
    {now nowR next now2 : List MazeState} {best best2 : MazeState}
    (hinner : innerLoopT tO t w k now [] = some (k2, some (nowR, next)))
    (hpop : Heap.pop next = some (best2, now2)) :
    bstLoop tO w (fuel + 1) t k now best =
      (if best2.is_done then .returns best2.first_action
       else bstLoop tO w fuel (t + 1) k2 (Heap.push now2 best2) best2) := by
  simp only [bstLoop, hinner, hpop]

theorem expandState_no_legal (t : Nat) (st : MazeState) (next : List MazeState)
    (h : st.generate_legal_actions = []) : expandState t st next = some next := by
  unfold expandState
  rw [h]
  rfl

theorem innerLoopT_drain (tO : Nat → Bool) (t : Nat) :
    ∀ (iters k : Nat) (now next : List MazeState),
    (∀ j, tO j = false) → (∀ y ∈ now, y.generate_legal_actions = []) →
    ∃ k2 now2, innerLoopT tO t iters k now next = some (k2, some (now2, next)) := by
  intro iters
  induction iters with
  | zero => intro k now next _ _; exact ⟨k, now, rfl⟩
  | succ iters ih =>
    intro k now next hfalse hleg
    cases hpop : Heap.pop now with
    | none => exact ⟨k + 1, now, innerLoopT_popnone t iters k (hfalse k) hpop⟩
    | some pair =>
      obtain ⟨st, now1⟩ := pair
      have hexp := expandState_no_legal t st next (hleg st (pop_mem hpop))
      rw [innerLoopT_expand t iters k (hfalse k) hpop hexp]
      exact ih (k + 1) now1 next hfalse (fun y hy => hleg y (pop_subset hpop y hy))

theorem innerLoop_drain (t : Nat) : ∀ (iters : Nat) (now next : List MazeState),
    (∀ y ∈ now, y.generate_legal_actions = []) →
    ∃ now2, innerLoop t iters now next = some (now2, next) := by
  intro iters
  induction iters with
  | zero => intro now next _; exact ⟨now, rfl⟩
  | succ iters ih =>
    intro now next hleg
    cases hpop : Heap.pop now with
    | none => exact ⟨now, innerLoop_succ_none t iters hpop⟩
    | some pair =>
      obtain ⟨st, now1⟩ := pair
      have hexp := expandState_no_legal t st next (hleg st (pop_mem hpop))
      rw [innerLoop_succ_expand t iters hpop hexp]
      exact ih now1 next (fun y hy => hleg y (pop_subset hpop y hy))

theorem zero_zero_not_legal (s : MazeState) :
    ((0 : Int), (0 : Int)) ∉ s.generate_legal_actions := by
  intro h
  exact absurd (legal_subset_moves s _ h) (by decide)

/-- Expiry at the very first poll: the search panics whenever the root's
`first_action` is still the placeholder. -/
theorem bst_first_poll_expired (s : MazeState) (w thr : Nat) (elapsed : Nat → Nat)
    (fuel : Nat) (hw : 1 ≤ w) (hf : 1 ≤ fuel) (hexp : thr ≤ elapsed 0)
    (hfa : s.first_action = (0, 0)) :
    beam_search_with_time_threshold s w thr elapsed fuel = .panics := by
  obtain ⟨w1, rfl⟩ : ∃ w1, w = w1 + 1 := ⟨w - 1, by omega⟩
  obtain ⟨f1, rfl⟩ : ∃ f1, fuel = f1 + 1 := ⟨fuel - 1, by omega⟩
  unfold beam_search_with_time_threshold
  have htrue : TimeKeeper.is_time_over thr (elapsed 0) = true := by
    simp [TimeKeeper.is_time_over, hexp]
  rw [bstLoop_timeoutRes (innerLoopT_timeout 0 w1 0 htrue)]
  rw [if_pos hfa]

/-! ## Episodes: sequences of legal `advance` calls -/

theorem stepLegal_some {s : MazeState} {m : Int × Int} {s2 : MazeState}
    (h : stepLegal s m = some s2) :
    m ∈ s.generate_legal_actions ∧ s.advance m = some s2 := by
  unfold stepLegal at h
  split at h
  · exact ⟨by assumption, h⟩
  · exact absurd h (by simp)

theorem stepLegal_pres {s : MazeState} {m : Int × Int} {s2 : MazeState}
    (hd : ValidDims s) (hnn : PointsNonneg s) (h : stepLegal s m = some s2) :
    ValidDims s2 ∧ PointsNonneg s2 ∧ s.game_score ≤ s2.game_score ∧
    (s.game_score < s2.game_score ↔
      pointsAt s s2.character.h.toNat s2.character.w.toNat ≠ 0) ∧
    pointsAt s2 s2.character.h.toNat s2.character.w.toNat = 0 ∧
    (∀ i j, pointsAt s i j = 0 → pointsAt s2 i j = 0) := by
  obtain ⟨hm, hadv⟩ := stepLegal_some h
  obtain ⟨hvd, hib, hch, hcw, ht, hev, hfa, hgs, hz, ho, hnn2⟩ := advance_facts hd hadv
  obtain ⟨hnn3, hp⟩ := hnn2 hnn
  rw [hch, hcw]
  refine ⟨hvd, hnn3, ?_, ?_, ?_, ?_⟩
  · rw [hgs]; omega
  · rw [hgs]
    constructor
    · intro hlt
      intro hzero
      rw [hzero] at hlt
      omega
    · intro hne
      have : 0 < pointsAt s (s.character.h + m.2).toNat (s.character.w + m.1).toNat := by
        rcases lt_or_eq_of_le hp with h1 | h1
        · exact h1
        · exact absurd h1.symm hne
      omega
  · exact hz
  · intro i j hij
    by_cases hcell : i = (s.character.h + m.2).toNat ∧ j = (s.character.w + m.1).toNat
    · obtain ⟨rfl, rfl⟩ := hcell
      exact hz
    · rw [ho i j hcell]
      exact hij

theorem runLegal_pres : ∀ (ms : List (Int × Int)) (s s2 : MazeState),
    ValidDims s → PointsNonneg s → runLegal s ms = some s2 →
    ValidDims s2 ∧ PointsNonneg s2 ∧ s.game_score ≤ s2.game_score ∧
    (∀ i j, pointsAt s i j = 0 → pointsAt s2 i j = 0) := by
  intro ms
  induction ms with
  | nil =>
    intro s s2 hd hnn h
    obtain rfl := Option.some.inj h
    exact ⟨hd, hnn, le_refl _, fun i j hz => hz⟩
  | cons m rest ih =>
    intro s s2 hd hnn h
    unfold runLegal at h
    split at h
    · exact absurd h (by simp)
    · rename_i s1 hstep
      obtain ⟨hd1, hnn1, hle1, _, _, hz1⟩ := stepLegal_pres hd hnn hstep
      obtain ⟨hd2, hnn2, hle2, hz2⟩ := ih s1 s2 hd1 hnn1 h
      exact ⟨hd2, hnn2, le_trans hle1 hle2, fun i j hz => hz2 i j (hz1 i j hz)⟩

/-- The constructed state is well formed, starts at turn `0` with zero scores
and the `(0, 0)` placeholder first action. -/
theorem new_facts (rand : Nat → Nat) :
    WellFormed (MazeState.new rand) ∧ (MazeState.new rand).turns = 0 ∧
    (MazeState.new rand).first_action = (0, 0) ∧
    (MazeState.new rand).game_score = 0 ∧
    (MazeState.new rand).evaluated_score = 0 := by
  refine ⟨⟨⟨?_, ?_⟩, ⟨?_, ?_, ?_, ?_⟩, ?_, ?_⟩, rfl, rfl, rfl, rfl⟩
  · simp [MazeState.new]
  · intro row hrow
    simp only [MazeState.new, List.mem_map, List.mem_range] at hrow
    obtain ⟨i, _, rfl⟩ := hrow
    simp
  · simp only [MazeState.new]
    positivity
  · simp only [MazeState.new]
    exact_mod_cast Nat.mod_lt (rand 1) (by norm_num [H])
  · simp only [MazeState.new]
    positivity
  · simp only [MazeState.new]
    exact_mod_cast Nat.mod_lt (rand 0) (by norm_num [W])
  · intro row hrow x hx
    simp only [MazeState.new, List.mem_map, List.mem_range] at hrow
    obtain ⟨i, _, rfl⟩ := hrow
    simp only [List.mem_map, List.mem_range] at hx
    obtain ⟨j, _, rfl⟩ := hx
    positivity
  · simp [MazeState.new]

/-! ## Shared helpers for the claim theorems -/

theorem mkChild0_stamped (root : MazeState) (hwf : WellFormed root) :
    ∀ a ∈ root.generate_legal_actions, ∃ c, mkChild 0 root a = some c ∧
      (GoodE c ∧ c.first_action ∈ root.generate_legal_actions) := by
  intro a ha
  obtain ⟨c, hc, hvd, hib, heg, _, _, hfa, hnn⟩ := mkChild_facts 0 root a hwf.1 ha
  refine ⟨c, hc, ⟨⟨hvd, hib, (hnn hwf.2.2.1).1,
    le_trans hwf.2.2.2 (hnn hwf.2.2.1).2⟩, heg⟩, ?_⟩
  rw [hfa, if_pos rfl]
  exact ha

/-! ## The claims -/

/-- C6: for every state with the data model's fixed grid dimensions and every
move `m` returned by `generate_legal_actions`, `advance m` succeeds, moves
the position by the unit offset `m`, adds the reward stored at the new cell
to `game_score`, zeroes that cell, and increments `turns` by exactly one;
`evaluated_score`, `first_action` and every other grid cell are unchanged
(states are independent values, so no other state can be affected). -/
theorem C6_advance_effect (s : MazeState) (m : Int × Int) (hd : ValidDims s)
    (hm : m ∈ s.generate_legal_actions) :
    ∃ s2, s.advance m = some s2 ∧
      s2.character.w = s.character.w + m.1 ∧
      s2.character.h = s.character.h + m.2 ∧
      s2.game_score = s.game_score +
        pointsAt s s2.character.h.toNat s2.character.w.toNat ∧
      pointsAt s2 s2.character.h.toNat s2.character.w.toNat = 0 ∧
      s2.turns = s.turns + 1 ∧
      s2.evaluated_score = s.evaluated_score ∧
      s2.first_action = s.first_action ∧
      (∀ i j : Nat, ¬(i = s2.character.h.toNat ∧ j = s2.character.w.toNat) →
        pointsAt s2 i j = pointsAt s i j) := by
  have hb := (mem_legal_iff s m).mp hm
  obtain ⟨s2, h2⟩ := advance_some_of_bounds s m hd hb.2.1 hb.2.2.1 hb.2.2.2.1 hb.2.2.2.2
  obtain ⟨hvd, hib, hch, hcw, ht, hev, hfa, hgs, hz, ho, _⟩ := advance_facts hd h2
  refine ⟨s2, h2, hcw, hch, ?_, ?_, ht, hev, hfa, ?_⟩
  · rw [hch, hcw]
    exact hgs
  · rw [hch, hcw]
    exact hz
  · rw [hch, hcw]
    exact ho

/-- Witness for C6 at a concrete state and move. -/
theorem C6_advance_effect_witness :
    ValidDims root0 ∧ ((0 : Int), (1 : Int)) ∈ root0.generate_legal_actions ∧
    (∃ s2, root0.advance (0, 1) = some s2 ∧
      s2.character.w = root0.character.w + 0 ∧
      s2.character.h = root0.character.h + 1 ∧
      s2.game_score = root0.game_score +
        pointsAt root0 s2.character.h.toNat s2.character.w.toNat ∧
      pointsAt s2 s2.character.h.toNat s2.character.w.toNat = 0 ∧
      s2.turns = root0.turns + 1 ∧
      s2.evaluated_score = root0.evaluated_score ∧
      s2.first_action = root0.first_action ∧
      (∀ i j : Nat, ¬(i = s2.character.h.toNat ∧ j = s2.character.w.toNat) →
        pointsAt s2 i j = pointsAt root0 i j)) :=
  ⟨by decide, by decide, C6_advance_effect root0 (0, 1) (by decide) (by decide)⟩

/-- C7: from an in-bounds position, every legal move leads to an in-bounds
position, and `generate_legal_actions` is exactly the fixed four-move
enumeration filtered to the moves whose target stays in bounds, in the
enumeration order of `moves` (a sublist of `moves`); being a pure function
it returns the same list on every call. -/
theorem C7_bounds_preserved (s : MazeState) (m : Int × Int) (hd : ValidDims s)
    (_hb : InBounds s) (hm : m ∈ s.generate_legal_actions) :
    (∃ s2, s.advance m = some s2 ∧ InBounds s2) ∧
    (∀ a : Int × Int, a ∈ s.generate_legal_actions ↔ (a ∈ moves ∧
      0 ≤ s.character.w + a.1 ∧ s.character.w + a.1 < (W : Int) ∧
      0 ≤ s.character.h + a.2 ∧ s.character.h + a.2 < (H : Int))) ∧
    s.generate_legal_actions.Sublist moves := by
  refine ⟨?_, fun a => mem_legal_iff s a, legal_sublist s⟩
  have hb2 := (mem_legal_iff s m).mp hm
  obtain ⟨s2, h2⟩ := advance_some_of_bounds s m hd hb2.2.1 hb2.2.2.1 hb2.2.2.2.1
    hb2.2.2.2.2
  obtain ⟨_, hib, _⟩ := advance_facts hd h2
  exact ⟨s2, h2, hib⟩

/-- Witness for C7 at a concrete state and move. -/
theorem C7_bounds_preserved_witness :
    ValidDims root0 ∧ InBounds root0 ∧
    ((0 : Int), (1 : Int)) ∈ root0.generate_legal_actions ∧
    ((∃ s2, root0.advance (0, 1) = some s2 ∧ InBounds s2) ∧
     (∀ a : Int × Int, a ∈ root0.generate_legal_actions ↔ (a ∈ moves ∧
       0 ≤ root0.character.w + a.1 ∧ root0.character.w + a.1 < (W : Int) ∧
       0 ≤ root0.character.h + a.2 ∧ root0.character.h + a.2 < (H : Int))) ∧
     root0.generate_legal_actions.Sublist moves) :=
  ⟨by decide, by decide, by decide,
    C7_bounds_preserved root0 (0, 1) (by decide) (by decide) (by decide)⟩

/-- C9: on a state satisfying the data model's invariants, `greedy_action`
returns the first legal move (in enumeration order) whose one-ply ordering
key is maximal — the best is replaced only on a strictly greater key, so
ties keep the first-seen move — and it returns the sentinel `(-1, -1)` if
and only if the legal-move list is empty. -/
theorem C9_greedy_first_argmax (s : MazeState) (hwf : WellFormed s) :
    (s.generate_legal_actions ≠ [] →
      ∃ g gk l1 l2, greedy_action s = some g ∧ onePlyScore s g = some gk ∧
        s.generate_legal_actions = l1 ++ g :: l2 ∧
        (∀ a ∈ s.generate_legal_actions, ∀ k, onePlyScore s a = some k → k ≤ gk) ∧
        (∀ x ∈ l1, ∀ k, onePlyScore s x = some k → k < gk)) ∧
    (greedy_action s = some (-1, -1) ↔ s.generate_legal_actions = []) := by
  constructor
  · intro hne
    obtain ⟨g, gk, h1, _, h3, _, h5, l1, l2, h6, h7⟩ := greedy_max s hwf hne
    exact ⟨g, gk, l1, l2, h1, h3, h6, h5, h7⟩
  · constructor
    · intro hg
      by_contra hne
      obtain ⟨g, _, h1, hmem, _⟩ := greedy_max s hwf hne
      rw [h1] at hg
      obtain rfl := Option.some.inj hg
      exact absurd (legal_subset_moves s _ hmem) (by decide)
    · intro hnil
      unfold greedy_action
      rw [hnil]
      rfl

/-- Witness for C9 at a concrete well-formed state. -/
theorem C9_greedy_first_argmax_witness :
    WellFormed root0 ∧
    ((root0.generate_legal_actions ≠ [] →
      ∃ g gk l1 l2, greedy_action root0 = some g ∧ onePlyScore root0 g = some gk ∧
        root0.generate_legal_actions = l1 ++ g :: l2 ∧
        (∀ a ∈ root0.generate_legal_actions, ∀ k,
          onePlyScore root0 a = some k → k ≤ gk) ∧
        (∀ x ∈ l1, ∀ k, onePlyScore root0 x = some k → k < gk)) ∧
    (greedy_action root0 = some (-1, -1) ↔ root0.generate_legal_actions = [])) :=
  ⟨by decide, C9_greedy_first_argmax root0 (by decide)⟩

/-- C10: with `beam_depth = 0` the depth-bounded search performs no expansion
and returns the root's stored `first_action` unchanged; a constructed state
carries the `(0, 0)` placeholder there, `advance` never modifies the field,
and `(0, 0)` is not one of the four unit moves. -/
theorem C10_depth_zero :
    (∀ (s : MazeState) (w : Nat), beam_search_action s w 0 = some s.first_action) ∧
    (∀ rand : Nat → Nat, (MazeState.new rand).first_action = (0, 0)) ∧
    (((0 : Int), (0 : Int)) ∉ moves) ∧
    (∀ (s : MazeState) (m : Int × Int) (s2 : MazeState),
      s.advance m = some s2 → s2.first_action = s.first_action) := by
  refine ⟨?_, fun _ => rfl, by decide, ?_⟩
  · intro s w
    unfold beam_search_action
    rw [bsLoopS_zero]
    rfl
  · intro s m s2 h
    obtain ⟨_, _, _, _, _, _, hs2⟩ := advance_inv h
    rw [hs2]

/-- Witness for C10: depth `0` at a concrete state, and the hypothesis of its
`advance` clause discharged at a concrete successful move. -/
theorem C10_depth_zero_witness :
    beam_search_action root0 1 0 = some root0.first_action ∧
    ((0 : Int), (0 : Int)) ∉ moves ∧
    (root0.advance (0, 1)).map (fun s2 => s2.first_action) =
      some root0.first_action := by
  refine ⟨C10_depth_zero.1 root0 1, C10_depth_zero.2.2.1, ?_⟩
  obtain ⟨s2, h2⟩ := advance_some_of_bounds root0 (0, 1) (by decide) (by decide)
    (by decide) (by decide) (by decide)
  rw [h2]
  simp [C10_depth_zero.2.2.2 root0 (0, 1) s2 h2]

/-- C5: on a well-formed root at turn `0` with a non-empty legal-move list,
the depth-bounded search with `beam_depth = END_TERN` and a positive beam
width returns a `first_action` that is one of the root's legal moves. -/
theorem C5_first_move_legal (s : MazeState) (w : Nat) (hwf : WellFormed s)
    (_hz : s.turns = 0) (_hne : s.generate_legal_actions ≠ []) (hw : 1 ≤ w) :
    ∃ m, m ∈ s.generate_legal_actions ∧
      beam_search_action s w END_TERN = some m := by
  have hQstep : ∀ t, 1 ≤ t → ∀ st,
      (GoodE st ∧ st.first_action ∈ s.generate_legal_actions) →
      ∀ a ∈ st.generate_legal_actions, ∀ c, mkChild t st a = some c →
      (GoodE c ∧ c.first_action ∈ s.generate_legal_actions) := by
    intro t ht st hst a ha c hc
    refine ⟨goodE_step t st hst.1 a ha c hc, ?_⟩
    obtain ⟨c', hc', _, _, _, _, _, hfa, _⟩ := mkChild_facts t st a hst.1.1.1 ha
    rw [hc] at hc'
    obtain rfl := Option.some.inj hc'
    rw [hfa, if_neg (by omega)]
    exact hst.2
  have hQ0 : ∀ a ∈ s.generate_legal_actions, ∀ c, mkChild 0 s a = some c →
      (GoodE c ∧ c.first_action ∈ s.generate_legal_actions) := by
    intro a ha c hc
    obtain ⟨c', hc', hQc⟩ := mkChild0_stamped s hwf a ha
    rw [hc] at hc'
    obtain rfl := Option.some.inj hc'
    exact hQc
  obtain ⟨bf, hbf, hbfQ, _⟩ := beam_search_main s w END_TERN
    (fun x => GoodE x ∧ x.first_action ∈ s.generate_legal_actions)
    (fun x hx => hx.1) hQ0 hQstep hwf hw (by norm_num [END_TERN])
  refine ⟨bf.first_action, hbfQ.2, ?_⟩
  unfold beam_search_action
  rw [hbf]
  rfl

/-- Witness for C5 at a concrete root. -/
theorem C5_first_move_legal_witness :
    WellFormed root0 ∧ root0.turns = 0 ∧ root0.generate_legal_actions ≠ [] ∧
    (∃ m, m ∈ root0.generate_legal_actions ∧
      beam_search_action root0 1 END_TERN = some m) :=
  ⟨by decide, rfl, by decide,
    C5_first_move_legal root0 1 (by decide) rfl (by decide) le_rfl⟩

/-- C4 (counterexample): at the concrete root `root98`, the depth-bounded
search with beam width `4` (at least the root's branching factor `2`) and
`beam_depth = 100` (the turn limit) returns the move `(0, 1)` whose one-ply
lookahead score is `0`, strictly below the one-ply score `1` of the move
`(1, 0)` chosen by `greedy_action` — refuting the claim that the returned
move's one-ply score is always at least the greedy move's. -/
theorem C4_counterexample :
    root98.generate_legal_actions.length ≤ 4 ∧ END_TERN ≤ 100 ∧
    beam_search_action root98 4 100 = some (0, 1) ∧
    greedy_action root98 = some (1, 0) ∧
    onePlyScore root98 (0, 1) = some 0 ∧
    onePlyScore root98 (1, 0) = some 1 ∧
    ¬((1 : Int) ≤ 0) := by
  decide

/-- C4 (amended): under the claim's hypotheses (well-formed root, beam width
at least the branching factor, depth at least the turn limit) the search
never fails, and the multi-ply `evaluated_score` of the best state whose
`first_action` it returns is at least the one-ply lookahead score of the
move chosen by `greedy_action` — beam search dominates greedy in the score
of the state it steers to, though not in the returned move's own one-ply
score. -/
theorem C4_beam_dominates_greedy (s : MazeState) (w d : Nat) (hwf : WellFormed s)
    (hwidth : s.generate_legal_actions.length ≤ w) (hdepth : END_TERN ≤ d) :
    ∃ bf g gk, bsLoopS w d 0 (Heap.push [] s) s = some bf ∧
      beam_search_action s w d = some bf.first_action ∧
      greedy_action s = some g ∧ onePlyScore s g = some gk ∧
      gk ≤ bf.evaluated_score := by
  have hne : s.generate_legal_actions ≠ [] := legal_ne_nil_of_inBounds s hwf.2.1
  have hw : 1 ≤ w := by
    have := List.length_pos.mpr hne
    omega
  have hd : 1 ≤ d := by
    have h100 : END_TERN = 100 := rfl
    omega
  obtain ⟨g, gk, hg, hgmem, hgk, _, _, _⟩ := greedy_max s hwf hne
  have hQ0 : ∀ a ∈ s.generate_legal_actions, ∀ c, mkChild 0 s a = some c →
      GoodE c := by
    intro a ha c hc
    obtain ⟨c', hc', hQc⟩ := mkChild0_stamped s hwf a ha
    rw [hc] at hc'
    obtain rfl := Option.some.inj hc'
    exact hQc.1
  obtain ⟨bf, hbf, _, hdom⟩ := beam_search_main s w d GoodE (fun x hx => hx) hQ0
    (fun t _ st hst => goodE_step t st hst) hwf hw hd
  obtain ⟨cg, hcg, _, _, hcgeg, hcgk, _, _, _⟩ := mkChild_facts 0 s g hwf.1 hgmem
  have hgk2 : gk = cg.game_score := by
    rw [hgk] at hcgk
    exact Option.some.inj hcgk
  refine ⟨bf, g, gk, hbf, ?_, hg, hgk, ?_⟩
  · unfold beam_search_action
    rw [hbf]
    rfl
  · have hle := hdom g hgmem cg hcg
    rw [hcgeg] at hle
    rw [hgk2]
    exact hle

/-- Witness for the amended C4 at a concrete root. -/
theorem C4_beam_dominates_greedy_witness :
    WellFormed root0 ∧ root0.generate_legal_actions.length ≤ 4 ∧
    END_TERN ≤ 100 ∧
    (∃ bf g gk, bsLoopS 4 100 0 (Heap.push [] root0) root0 = some bf ∧
      beam_search_action root0 4 100 = some bf.first_action ∧
      greedy_action root0 = some g ∧ onePlyScore root0 g = some gk ∧
      gk ≤ bf.evaluated_score) :=
  ⟨by decide, by decide, by decide,
    C4_beam_dominates_greedy root0 4 100 (by decide) (by decide) (by decide)⟩

/-- C1 (counterexample): at the concrete state `noMoveState` no successor is
generated at depth `0`, so the next-generation frontier is empty before the
turn limit — and the depth-bounded search panics (`none`, the
`now_beam.pop().unwrap()` of the source) instead of completing normally
with the best first move found so far; the time-bounded search with an
unexpired guard panics on the same input as well. -/
theorem C1_counterexample :
    noMoveState.generate_legal_actions = [] ∧
    beam_search_action noMoveState 1 1 = none ∧
    beam_search_with_time_threshold noMoveState 1 1000 (fun _ => 0) 5 =
      .panics := by
  decide

/-- C1 (amended): whenever the frontier empties (the root admits no legal
move, so depth `0` generates no successors) both search variants panic on
the `unwrap` of the empty next-generation heap — the depth-bounded one for
any positive depth, the time-bounded one whenever the deadline has not yet
expired — instead of returning the best move found so far. -/
theorem C1_empty_frontier_panics :
    (∀ (s : MazeState) (w d : Nat), 1 ≤ d → s.generate_legal_actions = [] →
      beam_search_action s w d = none) ∧
    (∀ (s : MazeState) (w thr : Nat) (elapsed : Nat → Nat) (fuel : Nat),
      1 ≤ fuel → (∀ k, elapsed k < thr) → s.generate_legal_actions = [] →
      beam_search_with_time_threshold s w thr elapsed fuel = .panics) := by
  constructor
  · intro s w d hd hleg
    obtain ⟨d1, rfl⟩ : ∃ d1, d = d1 + 1 := ⟨d - 1, by omega⟩
    unfold beam_search_action
    rw [push_nil]
    obtain ⟨now2, hinner⟩ := innerLoop_drain 0 w [s] []
      (by intro y hy; rw [List.mem_singleton] at hy; subst hy; exact hleg)
    rw [bsLoopS_succ_popnone w d1 0 hinner rfl]
    rfl
  · intro s w thr elapsed fuel hf hlate hleg
    obtain ⟨f1, rfl⟩ : ∃ f1, fuel = f1 + 1 := ⟨fuel - 1, by omega⟩
    unfold beam_search_with_time_threshold
    rw [push_nil]
    have hfalse : ∀ j, TimeKeeper.is_time_over thr (elapsed j) = false := by
      intro j
      have := hlate j
      simp only [TimeKeeper.is_time_over, decide_eq_false_iff_not]
      omega
    obtain ⟨k2, now2, hinner⟩ := innerLoopT_drain
      (fun k => TimeKeeper.is_time_over thr (elapsed k)) 0 w 0 [s] [] hfalse
      (by intro y hy; rw [List.mem_singleton] at hy; subst hy; exact hleg)
    exact bstLoop_popnone hinner rfl

/-- Witness for the amended C1 at the concrete no-move state. -/
theorem C1_empty_frontier_panics_witness :
    noMoveState.generate_legal_actions = [] ∧
    beam_search_action noMoveState 2 1 = none ∧
    beam_search_with_time_threshold noMoveState 2 5 (fun _ => 0) 3 = .panics :=
  ⟨by decide,
    C1_empty_frontier_panics.1 noMoveState 2 1 le_rfl (by decide),
    C1_empty_frontier_panics.2 noMoveState 2 5 (fun _ => 0) 3 (by omega)
      (fun _ => by simp) (by decide)⟩

/-- C3 (counterexample): at the concrete well-formed root `root0` — which
has legal moves — the time-bounded search with a `0` millisecond threshold
panics (the guard expires at the very first poll, before any expansion), so
it does not return an element of the root's legal moves. -/
theorem C3_counterexample :
    root0.generate_legal_actions ≠ [] ∧
    beam_search_with_time_threshold root0 1 0 (fun k => k) 10 = .panics := by
  decide

/-- C3 (amended): with a `0` millisecond threshold the very first poll of
the guard reports expiry (elapsed time is always `≥ 0`), so for every root
still carrying the `(0, 0)` placeholder the time-bounded search terminates
immediately with the explicit `panic!` failure and never returns a move. -/
theorem C3_zero_threshold_panics (s : MazeState) (w : Nat) (elapsed : Nat → Nat)
    (fuel : Nat) (hw : 1 ≤ w) (hf : 1 ≤ fuel) (hfa : s.first_action = (0, 0)) :
    beam_search_with_time_threshold s w 0 elapsed fuel = .panics :=
  bst_first_poll_expired s w 0 elapsed fuel hw hf (Nat.zero_le _) hfa

/-- Witness for the amended C3 at a concrete root. -/
theorem C3_zero_threshold_panics_witness :
    1 ≤ 1 ∧ 1 ≤ 10 ∧ root0.first_action = (0, 0) ∧
    beam_search_with_time_threshold root0 1 0 (fun k => k) 10 = .panics :=
  ⟨le_rfl, by omega, rfl,
    C3_zero_threshold_panics root0 1 (fun k => k) 10 le_rfl (by omega) rfl⟩

/-- C2 (counterexample): at the concrete root `root0` with beam width `2`,
threshold `1` ms and a clock reading `0, 1, 2, ...` ms at successive polls,
the guard is unexpired at the first poll — so one depth-0 pop-and-expand
completes and records first moves on the successor states — and reports
expiry at the second poll, still inside depth `0`; the search then panics
instead of returning, refuting the claim that expiry after a first move was
recorded always returns a move. -/
theorem C2_counterexample :
    root0.generate_legal_actions ≠ [] ∧
    TimeKeeper.is_time_over 1 0 = false ∧
    TimeKeeper.is_time_over 1 1 = true ∧
    beam_search_with_time_threshold root0 2 1 (fun k => k) 10 = .panics := by
  decide

/-- `innerLoopT` with `iters = 0` returns immediately. -/
theorem innerLoopT_zero {tO : Nat → Bool} (t k : Nat)
    {now next : List MazeState} :
    innerLoopT tO t 0 k now next = some (k, some (now, next)) := rfl

/-- Running one full inner beam-width loop of the time-bounded search when
the guard first reports expiry at poll index `K`: starting from poll
`k ≤ K`, the loop either hits the expiry (signalling the timeout) or
completes all its iterations with the poll counter still at most `K`,
preserving membership predicates and the heap invariant of the
next-generation frontier. -/
theorem innerLoopT_run (tO : Nat → Bool) (K : Nat) (hK : tO K = true)
    (hbefore : ∀ j, j < K → tO j = false) (t : Nat) (Qn Qx : MazeState → Prop)
    (hstep : ∀ st, Qn st → ∀ a ∈ st.generate_legal_actions,
      ∃ c, mkChild t st a = some c ∧ Qx c) :
    ∀ (iters k : Nat) (now next : List MazeState), k ≤ K →
    (∀ y ∈ now, Qn y) → (∀ y ∈ next, Qx y) → HeapInv next →
    (∃ k2, innerLoopT tO t iters k now next = some (k2, none)) ∨
    (∃ k2 now2 next2,
      innerLoopT tO t iters k now next = some (k2, some (now2, next2)) ∧
      k ≤ k2 ∧ k2 ≤ K ∧ (∀ y ∈ next2, Qx y) ∧ HeapInv next2 ∧
      (∀ y ∈ next, y ∈ next2)) := by
  intro iters
  induction iters with
  | zero =>
    intro k now next hkK _ hx hinv
    exact Or.inr ⟨k, now, next, rfl, le_refl k, hkK, hx, hinv, fun y hy => hy⟩
  | succ iters ih =>
    intro k now next hkK hn hx hinv
    rcases eq_or_lt_of_le hkK with heq | hlt
    · subst heq
      exact Or.inl ⟨k + 1, innerLoopT_timeout t iters k hK⟩
    · have hfk : tO k = false := hbefore k hlt
      cases hpop : Heap.pop now with
      | none =>
        exact Or.inr ⟨k + 1, now, next, innerLoopT_popnone t iters k hfk hpop,
          by omega, by omega, hx, hinv, fun y hy => hy⟩
      | some pair =>
        obtain ⟨st, now1⟩ := pair
        obtain ⟨next1, hexp, hQ1, hinv1, hsub1, _⟩ :=
          expandState_pres t Qx st (hstep st (hn st (pop_mem hpop))) next hx hinv
        rw [innerLoopT_expand t iters k hfk hpop hexp]
        rcases ih (k + 1) now1 next1 (by omega)
            (fun y hy => hn y (pop_subset hpop y hy)) hQ1 hinv1 with
          hleft | hright
        · exact Or.inl hleft
        · obtain ⟨k2, now2, next2, hrun, hk1, hk2, hQ2, hinv2, hsub2⟩ := hright
          exact Or.inr ⟨k2, now2, next2, hrun, by omega, hk2, hQ2, hinv2,
            fun y hy => hsub2 y (hsub1 y hy)⟩

/-- Running the depth loop of the time-bounded search from any depth
`t ≥ 1` whose frontier carries only well-scored states stamped with legal
root moves: if the guard first reports expiry at poll index `K`, the poll
counter has not yet passed `K`, and enough fuel remains, the search returns
a legal root move — either at a later expiry poll (the `best_state` at
every depth `≥ 1` carries a stamped legal move) or via the turn-limit
break. -/
theorem bstLoop_run (root : MazeState) (tO : Nat → Bool) (w K : Nat)
    (hK : tO K = true) (hbefore : ∀ j, j < K → tO j = false) (hw : 1 ≤ w) :
    ∀ (fuel t k : Nat) (now : List MazeState) (best : MazeState), 1 ≤ t →
    k ≤ K → K + 1 ≤ fuel + k →
    (∀ y ∈ now, GoodE y ∧ y.first_action ∈ root.generate_legal_actions) →
    HeapInv now → best ∈ now →
    ∃ m ∈ root.generate_legal_actions,
      bstLoop tO w fuel t k now best = .returns m := by
  intro fuel
  induction fuel with
  | zero =>
    intro t k now best _ hkK hfuel _ _ _
    omega
  | succ fuel ih =>
    intro t k now best ht hkK hfuel hQ hinv hmem
    have hQstep : ∀ st,
        GoodE st ∧ st.first_action ∈ root.generate_legal_actions →
        ∀ a ∈ st.generate_legal_actions, ∃ c, mkChild t st a = some c ∧
          (GoodE c ∧ c.first_action ∈ root.generate_legal_actions) := by
      intro st hst a ha
      obtain ⟨c, hc, _, _, _, _, _, hcfa, _⟩ := mkChild_facts t st a hst.1.1.1 ha
      refine ⟨c, hc, goodE_step t st hst.1 a ha c hc, ?_⟩
      rw [hcfa, if_neg (by omega)]
      exact hst.2
    have hbfa : best.first_action ∈ root.generate_legal_actions :=
      (hQ best hmem).2
    have hbne : ¬(best.first_action = (0, 0)) := fun hh =>
      zero_zero_not_legal root (hh ▸ hbfa)
    obtain ⟨w1, rfl⟩ : ∃ w1, w = w1 + 1 := ⟨w - 1, by omega⟩
    rcases eq_or_lt_of_le hkK with heq | hklt
    · subst heq
      rw [bstLoop_timeoutRes (innerLoopT_timeout t w1 k hK), if_neg hbne]
      exact ⟨best.first_action, hbfa, rfl⟩
    · have hfk : tO k = false := hbefore k hklt
      obtain ⟨pair, hpop⟩ : ∃ pair, Heap.pop now = some pair := by
        cases hp : Heap.pop now with
        | none =>
          exact absurd ((pop_eq_none_iff now).mp hp) (List.ne_nil_of_mem hmem)
        | some p => exact ⟨p, rfl⟩
      obtain ⟨x0, now1⟩ := pair
      have hx0Q := hQ x0 (pop_mem hpop)
      obtain ⟨next1, hexp, hQ1, hinv1, _, hch⟩ :=
        expandState_pres t
          (fun x => GoodE x ∧ x.first_action ∈ root.generate_legal_actions)
          x0 (hQstep x0 hx0Q) [] (by simp) heapInv_nil
      have hlne : x0.generate_legal_actions ≠ [] :=
        legal_ne_nil_of_inBounds x0 hx0Q.1.1.2.1
      obtain ⟨a0, ha0⟩ : ∃ a0, a0 ∈ x0.generate_legal_actions := by
        cases hxl : x0.generate_legal_actions with
        | nil => exact absurd hxl hlne
        | cons a rest => exact ⟨a, hxl ▸ List.mem_cons_self a rest⟩
      obtain ⟨c0, hc0, _⟩ := hQstep x0 hx0Q a0 ha0
      have hc0mem : c0 ∈ next1 := hch a0 ha0 c0 hc0
      rcases innerLoopT_run tO K hK hbefore t
          (fun x => GoodE x ∧ x.first_action ∈ root.generate_legal_actions)
          (fun x => GoodE x ∧ x.first_action ∈ root.generate_legal_actions)
          hQstep w1 (k + 1) now1 next1 (by omega)
          (fun y hy => hQ y (pop_subset hpop y hy)) hQ1 hinv1 with
        hleft | hright
      · obtain ⟨k2, hinner0⟩ := hleft
        have hinner : innerLoopT tO t (w1 + 1) k now [] = some (k2, none) := by
          rw [innerLoopT_expand t w1 k hfk hpop hexp]
          exact hinner0
        rw [bstLoop_timeoutRes hinner, if_neg hbne]
        exact ⟨best.first_action, hbfa, rfl⟩
      · obtain ⟨k2, now2, next2, hrun, hk1, hk2, hQ2, hinv2, hsub2⟩ := hright
        have hinner : innerLoopT tO t (w1 + 1) k now [] =
            some (k2, some (now2, next2)) := by
          rw [innerLoopT_expand t w1 k hfk hpop hexp]
          exact hrun
        have hc0mem2 : c0 ∈ next2 := hsub2 c0 hc0mem
        obtain ⟨pair2, hpop2⟩ : ∃ p2, Heap.pop next2 = some p2 := by
          cases hp : Heap.pop next2 with
          | none =>
            exact absurd ((pop_eq_none_iff next2).mp hp)
              (List.ne_nil_of_mem hc0mem2)
          | some p => exact ⟨p, rfl⟩
        obtain ⟨best2, now3⟩ := pair2
        have hb2Q := hQ2 best2 (pop_mem hpop2)
        rw [bstLoop_inner hinner hpop2]
        by_cases hdone : best2.is_done = true
        · rw [if_pos hdone]
          exact ⟨best2.first_action, hb2Q.2, rfl⟩
        · rw [if_neg hdone]
          exact ih (t + 1) k2 (Heap.push now3 best2) best2 (by omega) hk2
            (by omega)
            (fun y hy => by
              rcases (mem_push now3 best2 y).mp hy with rfl | hy2
              · exact hb2Q
              · exact hQ2 y (pop_subset hpop2 y hy2))
            (push_heapInv now3 best2 (pop_heapInv hinv2 hpop2))
            (push_mem_self now3 best2)

/-- C2 (amended): the guard is polled before each pop-and-expand step, but
the panic/return boundary is the completion of a full depth iteration, not
the recording of a first move. For every well-formed root still carrying
the `(0, 0)` placeholder, every beam width `w ≥ 1`, every threshold and
every clock: let `K` be the index of the first poll at which the guard
reports expiry. Depth `0` consumes exactly `min w 2` polls (one before its
single pop-and-expand and, if `w ≥ 2`, one before the pop that finds the
one-element frontier empty). If `K < min w 2` — expiry inside depth `0`,
possibly after the depth-0 expansion has already recorded first moves on
the successor states — the search panics; if `min w 2 ≤ K` — depth `0`
completes before expiry — it returns a legal move of the root (at a later
expiry poll, or via the turn-limit break). -/
theorem C2_time_guard (root : MazeState) (w thr : Nat) (elapsed : Nat → Nat)
    (fuel K : Nat) (hwf : WellFormed root) (hfa : root.first_action = (0, 0))
    (hw : 1 ≤ w)
    (hK : TimeKeeper.is_time_over thr (elapsed K) = true)
    (hbefore : ∀ j, j < K → TimeKeeper.is_time_over thr (elapsed j) = false) :
    (1 ≤ fuel → K < min w 2 →
      beam_search_with_time_threshold root w thr elapsed fuel = .panics) ∧
    (K + 1 ≤ fuel → min w 2 ≤ K →
      ∃ m ∈ root.generate_legal_actions,
        beam_search_with_time_threshold root w thr elapsed fuel
          = .returns m) := by
  obtain ⟨next1, hexp, hQn1, hinvn1, _, hch⟩ := expandState_pres 0
    (fun x => GoodE x ∧ x.first_action ∈ root.generate_legal_actions)
    root (mkChild0_stamped root hwf) [] (by simp) heapInv_nil
  constructor
  · intro hf hKlt
    obtain ⟨f1, rfl⟩ : ∃ f1, fuel = f1 + 1 := ⟨fuel - 1, by omega⟩
    obtain ⟨w1, rfl⟩ : ∃ w1, w = w1 + 1 := ⟨w - 1, by omega⟩
    rcases Nat.eq_zero_or_pos K with hK0 | hKpos
    · subst hK0
      have h0 : thr ≤ elapsed 0 := by
        have hh := hK
        simp only [TimeKeeper.is_time_over, decide_eq_true_eq] at hh
        exact hh
      exact bst_first_poll_expired root (w1 + 1) thr elapsed (f1 + 1)
        (by omega) (by omega) h0 hfa
    · have hK1 : K = 1 := by omega
      subst hK1
      obtain ⟨w2, rfl⟩ : ∃ w2, w1 = w2 + 1 := ⟨w1 - 1, by omega⟩
      unfold beam_search_with_time_threshold
      rw [push_nil]
      have ht0 : TimeKeeper.is_time_over thr (elapsed 0) = false :=
        hbefore 0 (by omega)
      have hinner : innerLoopT
          (fun k => TimeKeeper.is_time_over thr (elapsed k)) 0 (w2 + 2) 0
          [root] [] = some (2, none) := by
        rw [innerLoopT_expand 0 (w2 + 1) 0 ht0 (pop_singleton root) hexp]
        exact innerLoopT_timeout 0 w2 1 hK
      rw [bstLoop_timeoutRes hinner, if_pos hfa]
  · intro hf hKge
    have hKpos : 1 ≤ K := by omega
    obtain ⟨f1, rfl⟩ : ∃ f1, fuel = f1 + 1 := ⟨fuel - 1, by omega⟩
    obtain ⟨w1, rfl⟩ : ∃ w1, w = w1 + 1 := ⟨w - 1, by omega⟩
    unfold beam_search_with_time_threshold
    rw [push_nil]
    have ht0 : TimeKeeper.is_time_over thr (elapsed 0) = false :=
      hbefore 0 (by omega)
    have hpopnil : Heap.pop ([] : List MazeState) = none := rfl
    obtain ⟨k1, hk1a, hk1b, hinner⟩ : ∃ k1, 1 ≤ k1 ∧ k1 ≤ K ∧
        innerLoopT (fun k => TimeKeeper.is_time_over thr (elapsed k)) 0
          (w1 + 1) 0 [root] [] = some (k1, some ([], next1)) := by
      cases w1 with
      | zero =>
        refine ⟨1, le_refl 1, hKpos, ?_⟩
        rw [innerLoopT_expand 0 0 0 ht0 (pop_singleton root) hexp,
          innerLoopT_zero 0 1]
      | succ w2 =>
        have ht1 : TimeKeeper.is_time_over thr (elapsed 1) = false :=
          hbefore 1 (by omega)
        refine ⟨2, by omega, by omega, ?_⟩
        rw [innerLoopT_expand 0 (w2 + 1) 0 ht0 (pop_singleton root) hexp]
        rw [innerLoopT_popnone 0 w2 1 ht1 hpopnil]
    obtain ⟨a0, ha0⟩ : ∃ a0, a0 ∈ root.generate_legal_actions := by
      cases hxl : root.generate_legal_actions with
      | nil =>
        exact absurd hxl (legal_ne_nil_of_inBounds root hwf.2.1)
      | cons a rest => exact ⟨a, hxl ▸ List.mem_cons_self a rest⟩
    obtain ⟨c0, hc0, _⟩ := mkChild0_stamped root hwf a0 ha0
    have hc0mem : c0 ∈ next1 := hch a0 ha0 c0 hc0
    obtain ⟨pair, hpop⟩ : ∃ p, Heap.pop next1 = some p := by
      cases hp : Heap.pop next1 with
      | none =>
        exact absurd ((pop_eq_none_iff next1).mp hp) (List.ne_nil_of_mem hc0mem)
      | some p => exact ⟨p, rfl⟩
    obtain ⟨best1, now3⟩ := pair
    have hb1Q := hQn1 best1 (pop_mem hpop)
    rw [bstLoop_inner hinner hpop]
    by_cases hdone : best1.is_done = true
    · rw [if_pos hdone]
      exact ⟨best1.first_action, hb1Q.2, rfl⟩
    · rw [if_neg hdone]
      exact bstLoop_run root (fun k => TimeKeeper.is_time_over thr (elapsed k))
        (w1 + 1) K hK hbefore (by omega) f1 1 k1 (Heap.push now3 best1) best1
        le_rfl hk1b (by omega)
        (fun y hy => by
          rcases (mem_push now3 best1 y).mp hy with rfl | hy2
          · exact hb1Q
          · exact hQn1 y (pop_subset hpop y hy2))
        (push_heapInv now3 best1 (pop_heapInv hinvn1 hpop))
        (push_mem_self now3 best1)

/-- Witness for the amended C2 at a concrete root, width, threshold and
clock whose first expired poll is index `2` (so depth `0`'s two polls
complete first). -/
theorem C2_time_guard_witness :
    WellFormed root0 ∧ root0.first_action = (0, 0) ∧ 1 ≤ 2 ∧
    TimeKeeper.is_time_over 1 ((fun k => if 2 ≤ k then 5 else 0) 2) = true ∧
    (∀ j, j < 2 →
      TimeKeeper.is_time_over 1
        ((fun k => if 2 ≤ k then 5 else 0) j) = false) ∧
    ((1 ≤ 10 → 2 < min 2 2 →
      beam_search_with_time_threshold root0 2 1
        (fun k => if 2 ≤ k then 5 else 0) 10 = .panics) ∧
     (2 + 1 ≤ 10 → min 2 2 ≤ 2 →
      ∃ m ∈ root0.generate_legal_actions,
        beam_search_with_time_threshold root0 2 1
          (fun k => if 2 ≤ k then 5 else 0) 10 = .returns m)) :=
  ⟨by decide, rfl, by omega, by decide, by decide,
    C2_time_guard root0 2 1 (fun k => if 2 ≤ k then 5 else 0) 10 2 (by decide)
      rfl (by omega) (by decide) (by decide)⟩

/-- C8: along any sequence of legal `advance` calls from a constructed
state, `game_score` is monotonically non-decreasing — it dominates the
start's score at every reachable state `s1`, every single further legal
step from `s1` to `s2` satisfies `s1.game_score ≤ s2.game_score`, and every
continuation run from `s2` to `s3` satisfies
`s2.game_score ≤ s3.game_score`, so the score never decreases between any
two points of the episode; a step strictly increases it exactly when the
entered cell's reward is nonzero at that moment; and after a step has
entered a cell (zeroing it), any later legal step of the episode that
re-enters the same cell adds `0`. -/
theorem C8_score_monotone (rand : Nat → Nat) :
    ∀ (ms : List (Int × Int)) (s1 : MazeState),
      runLegal (MazeState.new rand) ms = some s1 →
      (MazeState.new rand).game_score ≤ s1.game_score ∧
      ∀ (m : Int × Int) (s2 : MazeState), stepLegal s1 m = some s2 →
        s1.game_score ≤ s2.game_score ∧
        (s1.game_score < s2.game_score ↔
          pointsAt s1 s2.character.h.toNat s2.character.w.toNat ≠ 0) ∧
        (∀ (ms2 : List (Int × Int)) (s3 : MazeState),
          runLegal s2 ms2 = some s3 → s2.game_score ≤ s3.game_score) ∧
        ∀ (ms2 : List (Int × Int)) (s3 : MazeState) (m2 : Int × Int)
          (s4 : MazeState),
          runLegal s2 ms2 = some s3 → stepLegal s3 m2 = some s4 →
          s4.character = s2.character → s4.game_score = s3.game_score := by
  intro ms s1 hrun
  have hnew := new_facts rand
  have hd0 : ValidDims (MazeState.new rand) := hnew.1.1
  have hnn0 : PointsNonneg (MazeState.new rand) := hnew.1.2.2.1
  obtain ⟨hd1, hnn1, hle1, _⟩ := runLegal_pres ms _ s1 hd0 hnn0 hrun
  refine ⟨hle1, ?_⟩
  intro m s2 hstep
  obtain ⟨hd2, hnn2, hle2, hiff, hz2self, _⟩ := stepLegal_pres hd1 hnn1 hstep
  refine ⟨hle2, hiff,
    fun ms2 s3 hrun2 => (runLegal_pres ms2 s2 s3 hd2 hnn2 hrun2).2.2.1, ?_⟩
  intro ms2 s3 m2 s4 hrun2 hstep2 hchar
  obtain ⟨hd3, hnn3, _, hz3⟩ := runLegal_pres ms2 s2 s3 hd2 hnn2 hrun2
  obtain ⟨hm2, hadv2⟩ := stepLegal_some hstep2
  obtain ⟨_, _, hch4, hcw4, _, _, _, hgs4, _, _, _⟩ := advance_facts hd3 hadv2
  have hih : s3.character.h + m2.2 = s2.character.h := by
    rw [← hch4, hchar]
  have hiw : s3.character.w + m2.1 = s2.character.w := by
    rw [← hcw4, hchar]
  have hzero3 : pointsAt s3 s2.character.h.toNat s2.character.w.toNat = 0 :=
    hz3 _ _ hz2self
  rw [hgs4, hih, hiw, hzero3]
  omega

/-- Witness for C8 with a concrete seed stream and the empty run. -/
theorem C8_score_monotone_witness :
    runLegal (MazeState.new (fun _ => 0)) [] = some (MazeState.new (fun _ => 0)) ∧
    ((MazeState.new (fun _ => 0)).game_score ≤
       (MazeState.new (fun _ => 0)).game_score ∧
     ∀ (m : Int × Int) (s2 : MazeState),
       stepLegal (MazeState.new (fun _ => 0)) m = some s2 →
       (MazeState.new (fun _ => 0)).game_score ≤ s2.game_score ∧
       ((MazeState.new (fun _ => 0)).game_score < s2.game_score ↔
         pointsAt (MazeState.new (fun _ => 0))
           s2.character.h.toNat s2.character.w.toNat ≠ 0) ∧
       (∀ (ms2 : List (Int × Int)) (s3 : MazeState),
         runLegal s2 ms2 = some s3 → s2.game_score ≤ s3.game_score) ∧
       ∀ (ms2 : List (Int × Int)) (s3 : MazeState) (m2 : Int × Int)
         (s4 : MazeState),
         runLegal s2 ms2 = some s3 → stepLegal s3 m2 = some s4 →
         s4.character = s2.character → s4.game_score = s3.game_score) :=
  ⟨rfl, C8_score_monotone (fun _ => 0) [] (MazeState.new (fun _ => 0)) rfl⟩
